import Mathlib

/-!
Verification of the comment-scoring core of the yt-bot-detector repository.

The definitions below are a shallow embedding of `src/lib/scoring.ts`
(the canonical scoring variant: `normalizeForFingerprint`, `scoreComments`,
`summarize`), of the response sanitization in `src/lib/gemini.ts`
(`geminiBotAnalyze`), and of the merge step in `src/app/api/analyze/route.ts`.

JavaScript strings are embedded as `List Char`.  JavaScript's built-in
Unicode operations (`toLowerCase`, `String.prototype.normalize("NFKD")`,
the regex character classes `\p{L}`, `\p{N}`, `\s`, `\w`,
`\p{Extended_Pictographic}`) are modelled by executable functions that agree
with the Unicode tables on an explicitly chosen fragment (ASCII plus parts
of Latin-1 and a small NFKD decomposition table) and act as the identity /
negatively elsewhere.  Numbers are embedded as `Int`/`Nat`/`Rat` (all
numeric values manipulated by the scoring code are integers or exact small
rationals; `Math.round` on an integral value is the identity).
-/

namespace YtBot

/-! ### Platform model: JS character classes and per-character operations -/

/-- Model of `String.prototype.toLowerCase` (exact on the ASCII fragment;
identity elsewhere). -/
def jsLower (c : Char) : Char :=
  if 0x41 ≤ c.toNat ∧ c.toNat ≤ 0x5A then Char.ofNat (c.toNat + 32) else c

/-- The JS regex class `\s` (WhiteSpace ∪ LineTerminator): TAB–CR, space,
NBSP, OGHAM space, U+2000–200A, LS, PS, NNBSP, MMSP, IDEOGRAPHIC space,
BOM.  This is the full ECMAScript set; `String.prototype.trim` strips the
same set. -/
def uIsSpace (c : Char) : Bool :=
  let n := c.toNat
  (0x9 ≤ n && n ≤ 0xD) || n == 0x20 || n == 0xA0 || n == 0x1680 ||
  (0x2000 ≤ n && n ≤ 0x200A) || n == 0x2028 || n == 0x2029 ||
  n == 0x202F || n == 0x205F || n == 0x3000 || n == 0xFEFF

/-- Modelled fragment of the Unicode class `\p{L}`: ASCII letters and the
Latin-1 letters U+00C0–U+00FF (minus × U+00D7 and ÷ U+00F7). -/
def uIsLetter (c : Char) : Bool :=
  let n := c.toNat
  (0x41 ≤ n && n ≤ 0x5A) || (0x61 ≤ n && n ≤ 0x7A) ||
  (0xC0 ≤ n && n ≤ 0xFF && n != 0xD7 && n != 0xF7)

/-- Modelled fragment of the Unicode class `\p{N}`: ASCII digits and the
Latin-1 superscripts ¹ ² ³. -/
def uIsNumber (c : Char) : Bool :=
  let n := c.toNat
  (0x30 ≤ n && n ≤ 0x39) || n == 0xB2 || n == 0xB3 || n == 0xB9

/-- The JS regex class `\w` = `[A-Za-z0-9_]`. -/
def uIsWordChar (c : Char) : Bool :=
  let n := c.toNat
  (0x41 ≤ n && n ≤ 0x5A) || (0x61 ≤ n && n ≤ 0x7A) ||
  (0x30 ≤ n && n ≤ 0x39) || n == 0x5F

/-- Modelled fragment of `\p{Extended_Pictographic}` (the main emoji
blocks). -/
def uIsPicto (c : Char) : Bool :=
  let n := c.toNat
  (0x2600 ≤ n && n ≤ 0x27BF) || (0x1F300 ≤ n && n ≤ 0x1F5FF) ||
  (0x1F600 ≤ n && n ≤ 0x1F64F) || (0x1F680 ≤ n && n ≤ 0x1F6FF) ||
  (0x1F900 ≤ n && n ≤ 0x1F9FF) || (0x1FA70 ≤ n && n ≤ 0x1FAFF)

/-- Modelled fragment of the per-character table behind
`String.prototype.normalize("NFKD")`: NBSP → space, some precomposed
Latin-1 letters → base letter + combining mark, the superscripts ¹ ² ³ →
digits, and the ﬁ ligature → "fi"; identity outside the table. -/
def nfkdChar (c : Char) : List Char :=
  if c.toNat = 0xA0 then [Char.ofNat 0x20]
  else if c.toNat = 0xE9 then [Char.ofNat 0x65, Char.ofNat 0x301]
  else if c.toNat = 0xE8 then [Char.ofNat 0x65, Char.ofNat 0x300]
  else if c.toNat = 0xE0 then [Char.ofNat 0x61, Char.ofNat 0x300]
  else if c.toNat = 0xB9 then [Char.ofNat 0x31]
  else if c.toNat = 0xB2 then [Char.ofNat 0x32]
  else if c.toNat = 0xB3 then [Char.ofNat 0x33]
  else if c.toNat = 0xFB01 then [Char.ofNat 0x66, Char.ofNat 0x69]
  else [c]

/-- Model of `s.normalize("NFKD")`. -/
def nfkd (l : List Char) : List Char := l.flatMap nfkdChar

/-! ### Regex scanner: global replace / global match over a character list -/

/-- Case-insensitive (`/i`) literal-prefix matcher: `ciPrefix pat l` returns
the remainder of `l` after `pat` (given in lowercase) when `pat` matches a
prefix of `l` up to `toLowerCase`. -/
def ciPrefix : List Char → List Char → Option (List Char)
  | [], l => some l
  | _ :: _, [] => none
  | p :: ps, c :: cs => if jsLower c = p then ciPrefix ps cs else none

/-- Greedy `\S+` after an already-matched prefix `pfx`: fails when no
non-space character follows, otherwise returns the full match and the
remainder. -/
def spanNonSpace (pfx : List Char) (r : List Char) : Option (List Char × List Char) :=
  let run := r.takeWhile (fun c => !uIsSpace c)
  if run.isEmpty then none else some (pfx ++ run, r.drop run.length)

/-- `\b` between the previous character (`none` at the string start) and the
character at the current position. -/
def boundaryOk (prev : Option Char) (c : Char) : Bool :=
  match prev with
  | none => uIsWordChar c
  | some p => uIsWordChar p != uIsWordChar c

/-- Matcher for `/https?:\/\/\S+/gi` at the current position. -/
def tryHttp (_ : Option Char) (l : List Char) : Option (List Char × List Char) :=
  match ciPrefix ('h' :: 't' :: 't' :: 'p' :: 's' :: ':' :: '/' :: '/' :: []) l with
  | some r => spanNonSpace (l.take 8) r
  | none =>
    match ciPrefix ('h' :: 't' :: 't' :: 'p' :: ':' :: '/' :: '/' :: []) l with
    | some r => spanNonSpace (l.take 7) r
    | none => none

/-- Matcher for `/\bwww\.\S+/gi` at the current position. -/
def tryWww (prev : Option Char) (l : List Char) : Option (List Char × List Char) :=
  match l with
  | [] => none
  | c :: _ =>
    if boundaryOk prev c then
      match ciPrefix ('w' :: 'w' :: 'w' :: '.' :: []) l with
      | some r => spanNonSpace (l.take 4) r
      | none => none
    else none

/-- Matcher for `/\byoutu\.be\/\S+/gi` at the current position. -/
def tryYoutu (prev : Option Char) (l : List Char) : Option (List Char × List Char) :=
  match l with
  | [] => none
  | c :: _ =>
    if boundaryOk prev c then
      match ciPrefix ('y' :: 'o' :: 'u' :: 't' :: 'u' :: '.' :: 'b' :: 'e' :: '/' :: []) l with
      | some r => spanNonSpace (l.take 9) r
      | none => none
    else none

/-- Matcher for `/\byoutube\.com\/\S+/gi` at the current position. -/
def tryYoutube (prev : Option Char) (l : List Char) : Option (List Char × List Char) :=
  match l with
  | [] => none
  | c :: _ =>
    if boundaryOk prev c then
      match ciPrefix
          ('y' :: 'o' :: 'u' :: 't' :: 'u' :: 'b' :: 'e' :: '.' :: 'c' :: 'o' :: 'm' :: '/' :: []) l with
      | some r => spanNonSpace (l.take 12) r
      | none => none
    else none

/-- Matcher for `/@\w+/g` at the current position. -/
def tryMention (_ : Option Char) (l : List Char) : Option (List Char × List Char) :=
  match l with
  | [] => none
  | c :: rest =>
    if c = '@' then
      let run := rest.takeWhile uIsWordChar
      if run.isEmpty then none else some (c :: run, rest.drop run.length)
    else none

/-- The class `[\p{L}\p{N}_]` used by the hashtag pattern. -/
def tagClass (c : Char) : Bool := uIsLetter c || uIsNumber c || c == '_'

/-- Matcher for `/#[\p{L}\p{N}_]+/gu` at the current position. -/
def tryTag (_ : Option Char) (l : List Char) : Option (List Char × List Char) :=
  match l with
  | [] => none
  | c :: rest =>
    if c = '#' then
      let run := rest.takeWhile tagClass
      if run.isEmpty then none else some (c :: run, rest.drop run.length)
    else none

/-- One global (`/g`) regex replace-with-`" "` scan: at each position try the
matcher; on a match emit a single space and resume after the match (the
previous-character state for `\b` is the last matched character), otherwise
keep the character and advance.  Recursion is on an explicit fuel so the
function reduces in the kernel; `fuel = l.length` always suffices because
every matcher used here consumes at least one character when it succeeds
(the guard `rest.length ≤ cs.length` makes the matcher's consumption
explicit; its `else` branch is dead for the matchers of this file). -/
def replaceScanF (m : Option Char → List Char → Option (List Char × List Char)) :
    Nat → Option Char → List Char → List Char
  | _, _, [] => []
  | 0, _, l => l
  | fuel + 1, prev, c :: cs =>
    match m prev (c :: cs) with
    | some (mt, rest) =>
      if rest.length ≤ cs.length then
        ' ' :: replaceScanF m fuel (some (mt.getLastD c)) rest
      else c :: replaceScanF m fuel (some c) cs
    | none => c :: replaceScanF m fuel (some c) cs

/-- `s.replace(re, " ")` for a global regex embodied by matcher `m`. -/
def replaceAll (m : Option Char → List Char → Option (List Char × List Char))
    (l : List Char) : List Char :=
  replaceScanF m l.length none l

/-- Global match collection (the `exec` loop of `extractUrls` and the
`String.prototype.match` count): returns the list of matched spans. -/
def matchScanF (m : Option Char → List Char → Option (List Char × List Char)) :
    Nat → Option Char → List Char → List (List Char)
  | _, _, [] => []
  | 0, _, _ => []
  | fuel + 1, prev, c :: cs =>
    match m prev (c :: cs) with
    | some (mt, rest) =>
      if rest.length ≤ cs.length then
        mt :: matchScanF m fuel (some (mt.getLastD c)) rest
      else matchScanF m fuel (some c) cs
    | none => matchScanF m fuel (some c) cs

/-- `s.match(re)` (global): the list of matched spans. -/
def matchAll (m : Option Char → List Char → Option (List Char × List Char))
    (l : List Char) : List (List Char) :=
  matchScanF m l.length none l

/-! ### The text normalizer of `scoring.ts` -/

/-- `normalizeWhitespace`'s `s.replace(/\s+/g, " ")`: each maximal run of
whitespace becomes a single space. -/
def collapseWs : List Char → List Char
  | [] => []
  | [c] => if uIsSpace c then [' '] else [c]
  | c :: d :: rest =>
    if uIsSpace c && uIsSpace d then collapseWs (d :: rest)
    else (if uIsSpace c then ' ' else c) :: collapseWs (d :: rest)

/-- `String.prototype.trim`. -/
def jsTrim (l : List Char) : List Char :=
  ((l.dropWhile uIsSpace).reverse.dropWhile uIsSpace).reverse

/-- `normalizeWhitespace(s)` = collapse whitespace runs, then trim. -/
def normalizeWhitespace (l : List Char) : List Char := jsTrim (collapseWs l)

/-- `stripUrls`: the four chained URL replaces. -/
def stripUrls (l : List Char) : List Char :=
  replaceAll tryYoutube (replaceAll tryYoutu (replaceAll tryWww (replaceAll tryHttp l)))

/-- `stripMentionsAndTags`: `@\w+` then `#[\p{L}\p{N}_]+`, each replaced by
a space. -/
def stripMentionsAndTags (l : List Char) : List Char :=
  replaceAll tryTag (replaceAll tryMention l)

/-- `stripPunctuation`: `s.replace(/[^\p{L}\p{N}\s]/gu, " ")` — a
single-character class, hence a per-character map. -/
def stripPunctuation (l : List Char) : List Char :=
  l.map (fun c => if uIsLetter c || uIsNumber c || uIsSpace c then c else ' ')

/-- `normalizeForFingerprint` on an (already string-valued) body:
NFKD-normalize, lower-case, strip URLs, mentions and tags, strip
punctuation, then collapse whitespace and trim. -/
def normalizeForFingerprintL (text : List Char) : List Char :=
  normalizeWhitespace
    (stripPunctuation (stripMentionsAndTags (stripUrls ((nfkd text).map jsLower))))

/-! ### Facts about the platform model -/

theorem toNat_ofNat_lt {n : Nat} (h : n < 55296) : (Char.ofNat n).toNat = n := by
  simp only [Char.ofNat, Nat.isValidChar]
  rw [dif_pos (Or.inl h)]
  rfl

theorem char_ne_of_toNat_ne {c d : Char} (h : c.toNat ≠ d.toNat) : c ≠ d :=
  fun he => h (he ▸ rfl)

theorem jsLower_eq_self {c : Char} (h : ¬(0x41 ≤ c.toNat ∧ c.toNat ≤ 0x5A)) :
    jsLower c = c := by
  rw [jsLower, if_neg h]

theorem jsLower_toNat_of_upper {c : Char} (h : 0x41 ≤ c.toNat ∧ c.toNat ≤ 0x5A) :
    (jsLower c).toNat = c.toNat + 32 := by
  rw [jsLower, if_pos h]
  exact toNat_ofNat_lt (by omega)

theorem nfkdChar_default {c : Char}
    (h1 : c.toNat ≠ 0xA0) (h2 : c.toNat ≠ 0xE9) (h3 : c.toNat ≠ 0xE8)
    (h4 : c.toNat ≠ 0xE0) (h5 : c.toNat ≠ 0xB9) (h6 : c.toNat ≠ 0xB2)
    (h7 : c.toNat ≠ 0xB3) (h8 : c.toNat ≠ 0xFB01) : nfkdChar c = [c] := by
  rw [nfkdChar, if_neg h1, if_neg h2, if_neg h3, if_neg h4, if_neg h5, if_neg h6,
    if_neg h7, if_neg h8]

/-- Every character that `nfkd` followed by `toLowerCase` can produce is a
fixed point of both operations. -/
theorem nfkd_out_fixed (c d : Char) (hd : d ∈ nfkdChar c) :
    nfkdChar (jsLower d) = [jsLower d] ∧ jsLower (jsLower d) = jsLower d := by
  by_cases k1 : c.toNat = 0xA0
  · rw [nfkdChar, if_pos k1] at hd
    simp at hd; subst hd; constructor <;> decide
  · by_cases k2 : c.toNat = 0xE9
    · rw [nfkdChar, if_neg k1, if_pos k2] at hd
      simp at hd; rcases hd with h | h <;> subst h <;> constructor <;> decide
    · by_cases k3 : c.toNat = 0xE8
      · rw [nfkdChar, if_neg k1, if_neg k2, if_pos k3] at hd
        simp at hd; rcases hd with h | h <;> subst h <;> constructor <;> decide
      · by_cases k4 : c.toNat = 0xE0
        · rw [nfkdChar, if_neg k1, if_neg k2, if_neg k3, if_pos k4] at hd
          simp at hd; rcases hd with h | h <;> subst h <;> constructor <;> decide
        · by_cases k5 : c.toNat = 0xB9
          · rw [nfkdChar, if_neg k1, if_neg k2, if_neg k3, if_neg k4, if_pos k5] at hd
            simp at hd; subst hd; constructor <;> decide
          · by_cases k6 : c.toNat = 0xB2
            · rw [nfkdChar, if_neg k1, if_neg k2, if_neg k3, if_neg k4, if_neg k5,
                if_pos k6] at hd
              simp at hd; subst hd; constructor <;> decide
            · by_cases k7 : c.toNat = 0xB3
              · rw [nfkdChar, if_neg k1, if_neg k2, if_neg k3, if_neg k4, if_neg k5,
                  if_neg k6, if_pos k7] at hd
                simp at hd; subst hd; constructor <;> decide
              · by_cases k8 : c.toNat = 0xFB01
                · rw [nfkdChar, if_neg k1, if_neg k2, if_neg k3, if_neg k4, if_neg k5,
                    if_neg k6, if_neg k7, if_pos k8] at hd
                  simp at hd; rcases hd with h | h <;> subst h <;> constructor <;> decide
                · rw [nfkdChar_default k1 k2 k3 k4 k5 k6 k7 k8] at hd
                  simp at hd; subst hd
                  by_cases hAZ : 0x41 ≤ d.toNat ∧ d.toNat ≤ 0x5A
                  · have hv : (jsLower d).toNat = d.toNat + 32 :=
                      jsLower_toNat_of_upper hAZ
                    have hfix : jsLower (jsLower d) = jsLower d :=
                      jsLower_eq_self (by omega)
                    refine ⟨?_, hfix⟩
                    exact nfkdChar_default (by omega) (by omega) (by omega) (by omega)
                      (by omega) (by omega) (by omega) (by omega)
                  · have hl : jsLower d = d := jsLower_eq_self hAZ
                    rw [hl]
                    exact ⟨nfkdChar_default k1 k2 k3 k4 k5 k6 k7 k8, hl⟩

/-- The modelled letter/digit classes are disjoint from the whitespace
class. -/
theorem LN_not_space {c : Char} (h : (uIsLetter c || uIsNumber c) = true) :
    uIsSpace c = false := by
  simp [uIsLetter, uIsNumber] at h
  simp [uIsSpace]
  omega

/-- A character whose lower case is outside `a`–`z` was not changed by
`jsLower`. -/
theorem jsLower_fix_of_target {c d : Char} (h : jsLower c = d)
    (hd : d.toNat < 0x61 ∨ 0x7A < d.toNat) : c = d := by
  by_cases hAZ : 0x41 ≤ c.toNat ∧ c.toNat ≤ 0x5A
  · exfalso
    have hv := jsLower_toNat_of_upper hAZ
    rw [h] at hv
    omega
  · rwa [jsLower_eq_self hAZ] at h

/-! ### Scanner lemmas -/

theorem ciPrefix_suffix : ∀ (ps l r : List Char), ciPrefix ps l = some r → r <:+ l := by
  intro ps
  induction ps with
  | nil =>
    intro l r h
    simp [ciPrefix] at h
    exact h ▸ List.suffix_rfl
  | cons p ps ih =>
    intro l r h
    cases l with
    | nil => simp [ciPrefix] at h
    | cons c cs =>
      rw [ciPrefix] at h
      split at h
      · exact (ih cs r h).trans (List.suffix_cons c cs)
      · exact absurd h (by simp)

theorem ciPrefix_mem : ∀ (ps l r : List Char), ciPrefix ps l = some r →
    ∀ p ∈ ps, ∃ c ∈ l, jsLower c = p := by
  intro ps
  induction ps with
  | nil => intro l r _ p hp; simp at hp
  | cons q ps ih =>
    intro l r h p hp
    cases l with
    | nil => simp [ciPrefix] at h
    | cons c cs =>
      rw [ciPrefix] at h
      split at h
      · rename_i hlc
        rcases List.mem_cons.mp hp with hp | hp
        · exact ⟨c, List.mem_cons_self c cs, by rw [hp]; exact hlc⟩
        · obtain ⟨c', hc', he⟩ := ih cs r h p hp
          exact ⟨c', List.mem_cons_of_mem c hc', he⟩
      · exact absurd h (by simp)

theorem spanNonSpace_suffix {pfx r mt rest : List Char}
    (h : spanNonSpace pfx r = some (mt, rest)) : rest <:+ r := by
  rw [spanNonSpace] at h
  split at h
  · exact absurd h (by simp)
  · simp at h
    exact h.2 ▸ List.drop_suffix _ r

theorem tryHttp_suffix {p : Option Char} {l mt rest : List Char}
    (h : tryHttp p l = some (mt, rest)) : rest <:+ l := by
  rw [tryHttp] at h
  split at h
  · rename_i r hr
    exact (spanNonSpace_suffix h).trans (ciPrefix_suffix _ l r hr)
  · split at h
    · rename_i r hr
      exact (spanNonSpace_suffix h).trans (ciPrefix_suffix _ l r hr)
    · exact absurd h (by simp)

theorem tryWww_suffix {p : Option Char} {l mt rest : List Char}
    (h : tryWww p l = some (mt, rest)) : rest <:+ l := by
  rw [tryWww.eq_def] at h
  split at h
  · exact absurd h (by simp)
  · split at h
    · split at h
      · rename_i r hr
        exact (spanNonSpace_suffix h).trans (ciPrefix_suffix _ _ r hr)
      · exact absurd h (by simp)
    · exact absurd h (by simp)

theorem tryYoutu_suffix {p : Option Char} {l mt rest : List Char}
    (h : tryYoutu p l = some (mt, rest)) : rest <:+ l := by
  rw [tryYoutu.eq_def] at h
  split at h
  · exact absurd h (by simp)
  · split at h
    · split at h
      · rename_i r hr
        exact (spanNonSpace_suffix h).trans (ciPrefix_suffix _ _ r hr)
      · exact absurd h (by simp)
    · exact absurd h (by simp)

theorem tryYoutube_suffix {p : Option Char} {l mt rest : List Char}
    (h : tryYoutube p l = some (mt, rest)) : rest <:+ l := by
  rw [tryYoutube.eq_def] at h
  split at h
  · exact absurd h (by simp)
  · split at h
    · split at h
      · rename_i r hr
        exact (spanNonSpace_suffix h).trans (ciPrefix_suffix _ _ r hr)
      · exact absurd h (by simp)
    · exact absurd h (by simp)

theorem tryMention_suffix {p : Option Char} {l mt rest : List Char}
    (h : tryMention p l = some (mt, rest)) : rest <:+ l := by
  cases l with
  | nil => simp [tryMention] at h
  | cons c cs =>
    rw [tryMention] at h
    split at h
    · dsimp only at h
      split at h
      · exact absurd h (by simp)
      · simp at h
        exact h.2 ▸ (List.drop_suffix _ cs).trans (List.suffix_cons _ _)
    · exact absurd h (by simp)

theorem tryTag_suffix {p : Option Char} {l mt rest : List Char}
    (h : tryTag p l = some (mt, rest)) : rest <:+ l := by
  cases l with
  | nil => simp [tryTag] at h
  | cons c cs =>
    rw [tryTag] at h
    split at h
    · dsimp only at h
      split at h
      · exact absurd h (by simp)
      · simp at h
        exact h.2 ▸ (List.drop_suffix _ cs).trans (List.suffix_cons _ _)
    · exact absurd h (by simp)

theorem tryHttp_mem_colon {p : Option Char} {l : List Char} {x : List Char × List Char}
    (h : tryHttp p l = some x) : ':' ∈ l := by
  rw [tryHttp] at h
  split at h
  · rename_i r hr
    obtain ⟨c, hc, he⟩ := ciPrefix_mem _ l r hr ':' (by decide)
    rwa [jsLower_fix_of_target he (by decide)] at hc
  · split at h
    · rename_i r hr
      obtain ⟨c, hc, he⟩ := ciPrefix_mem _ l r hr ':' (by decide)
      rwa [jsLower_fix_of_target he (by decide)] at hc
    · exact absurd h (by simp)

theorem tryWww_mem_dot {p : Option Char} {l : List Char} {x : List Char × List Char}
    (h : tryWww p l = some x) : '.' ∈ l := by
  rw [tryWww.eq_def] at h
  split at h
  · exact absurd h (by simp)
  · split at h
    · split at h
      · rename_i r hr
        obtain ⟨c, hc, he⟩ := ciPrefix_mem _ _ r hr '.' (by decide)
        rwa [jsLower_fix_of_target he (by decide)] at hc
      · exact absurd h (by simp)
    · exact absurd h (by simp)

theorem tryYoutu_mem_dot {p : Option Char} {l : List Char} {x : List Char × List Char}
    (h : tryYoutu p l = some x) : '.' ∈ l := by
  rw [tryYoutu.eq_def] at h
  split at h
  · exact absurd h (by simp)
  · split at h
    · split at h
      · rename_i r hr
        obtain ⟨c, hc, he⟩ := ciPrefix_mem _ _ r hr '.' (by decide)
        rwa [jsLower_fix_of_target he (by decide)] at hc
      · exact absurd h (by simp)
    · exact absurd h (by simp)

theorem tryYoutube_mem_dot {p : Option Char} {l : List Char} {x : List Char × List Char}
    (h : tryYoutube p l = some x) : '.' ∈ l := by
  rw [tryYoutube.eq_def] at h
  split at h
  · exact absurd h (by simp)
  · split at h
    · split at h
      · rename_i r hr
        obtain ⟨c, hc, he⟩ := ciPrefix_mem _ _ r hr '.' (by decide)
        rwa [jsLower_fix_of_target he (by decide)] at hc
      · exact absurd h (by simp)
    · exact absurd h (by simp)

theorem tryMention_mem_at {p : Option Char} {l : List Char} {x : List Char × List Char}
    (h : tryMention p l = some x) : '@' ∈ l := by
  cases l with
  | nil => simp [tryMention] at h
  | cons c cs =>
    rw [tryMention] at h
    split at h
    · rename_i hc
      exact hc ▸ List.mem_cons_self c cs
    · exact absurd h (by simp)

theorem tryTag_mem_hash {p : Option Char} {l : List Char} {x : List Char × List Char}
    (h : tryTag p l = some x) : '#' ∈ l := by
  cases l with
  | nil => simp [tryTag] at h
  | cons c cs =>
    rw [tryTag] at h
    split at h
    · rename_i hc
      exact hc ▸ List.mem_cons_self c cs
    · exact absurd h (by simp)

/-- Characters produced by a global replace are original characters or the
space written in. -/
theorem replaceScanF_mem
    (m : Option Char → List Char → Option (List Char × List Char))
    (hm : ∀ p t mt r, m p t = some (mt, r) → r <:+ t) :
    ∀ (fuel : Nat) (prev : Option Char) (l : List Char) (c : Char),
      c ∈ replaceScanF m fuel prev l → c = ' ' ∨ c ∈ l := by
  intro fuel
  induction fuel with
  | zero =>
    intro prev l c h
    cases l with
    | nil => simp [replaceScanF] at h
    | cons a as => simp only [replaceScanF] at h; exact Or.inr h
  | succ n ih =>
    intro prev l c h
    cases l with
    | nil => simp [replaceScanF] at h
    | cons a as =>
      rw [replaceScanF] at h
      cases hma : m prev (a :: as) with
      | none =>
        rw [hma] at h
        simp only [List.mem_cons] at h
        rcases h with h | h
        · exact Or.inr (by rw [h]; exact List.mem_cons_self a as)
        · rcases ih (some a) as c h with h | h
          · exact Or.inl h
          · exact Or.inr (List.mem_cons_of_mem a h)
      | some pr =>
        obtain ⟨mt, rest⟩ := pr
        rw [hma] at h
        dsimp only at h
        split at h
        · simp only [List.mem_cons] at h
          rcases h with h | h
          · exact Or.inl h
          · rcases ih _ rest c h with h | h
            · exact Or.inl h
            · exact Or.inr ((hm prev (a :: as) mt rest hma).subset h)
        · simp only [List.mem_cons] at h
          rcases h with h | h
          · exact Or.inr (by rw [h]; exact List.mem_cons_self a as)
          · rcases ih (some a) as c h with h | h
            · exact Or.inl h
            · exact Or.inr (List.mem_cons_of_mem a h)

/-- A global replace whose matcher never fires is the identity. -/
theorem replaceScanF_id
    (m : Option Char → List Char → Option (List Char × List Char))
    (L : List Char) (hm : ∀ p t, t ≠ [] → t <:+ L → m p t = none) :
    ∀ (fuel : Nat) (prev : Option Char) (l : List Char), l <:+ L →
      replaceScanF m fuel prev l = l := by
  intro fuel
  induction fuel with
  | zero => intro prev l _; cases l <;> simp [replaceScanF]
  | succ n ih =>
    intro prev l hl
    cases l with
    | nil => simp [replaceScanF]
    | cons a as =>
      rw [replaceScanF, hm prev (a :: as) (by simp) hl]
      rw [ih (some a) as ((List.suffix_cons a as).trans hl)]

theorem replaceAll_mem
    (m : Option Char → List Char → Option (List Char × List Char))
    (hm : ∀ p t mt r, m p t = some (mt, r) → r <:+ t)
    {l : List Char} {c : Char} (h : c ∈ replaceAll m l) : c = ' ' ∨ c ∈ l :=
  replaceScanF_mem m hm l.length none l c h

theorem replaceAll_id
    (m : Option Char → List Char → Option (List Char × List Char))
    {l : List Char} (hm : ∀ p t, t ≠ [] → t <:+ l → m p t = none) :
    replaceAll m l = l :=
  replaceScanF_id m l hm l.length none l List.suffix_rfl

/-! ### Canonical form of normalizer output -/

/-- A character of a fully-normalized fingerprint: in the modelled
letter/digit classes, not whitespace, and a fixed point of both NFKD and
lower-casing. -/
def CanonChar (c : Char) : Prop :=
  (uIsLetter c || uIsNumber c) = true ∧ uIsSpace c = false ∧
  nfkdChar c = [c] ∧ jsLower c = c

/-- Canonical shape of normalizer output: only `' '` and canonical
characters, no two adjacent whitespace characters, and no leading or
trailing whitespace. -/
def Canon (l : List Char) : Prop :=
  (∀ c ∈ l, c = ' ' ∨ CanonChar c) ∧
  l.Chain' (fun a b => ¬(uIsSpace a = true ∧ uIsSpace b = true)) ∧
  (∀ h ∈ l.head?, uIsSpace h = false) ∧ (∀ h ∈ l.getLast?, uIsSpace h = false)

theorem canon_chars_no {l : List Char} (hl : ∀ c ∈ l, c = ' ' ∨ CanonChar c)
    {c : Char} (hLN : (uIsLetter c || uIsNumber c) = false) (hsp : c ≠ ' ')
    (hc : c ∈ l) : False := by
  rcases hl c hc with h | h
  · exact hsp h
  · rw [h.1] at hLN
    exact absurd hLN (by simp)

theorem stripPunctuation_mem {l : List Char} {c : Char} (h : c ∈ stripPunctuation l) :
    c = ' ' ∨ (c ∈ l ∧ (uIsLetter c || uIsNumber c || uIsSpace c) = true) := by
  rw [stripPunctuation] at h
  obtain ⟨d, hd, he⟩ := List.mem_map.mp h
  by_cases hk : (uIsLetter d || uIsNumber d || uIsSpace d) = true
  · rw [if_pos hk] at he
    exact Or.inr ⟨he ▸ hd, he ▸ hk⟩
  · rw [if_neg hk] at he
    exact Or.inl he.symm

theorem stripPunctuation_id {l : List Char}
    (h : ∀ c ∈ l, (uIsLetter c || uIsNumber c || uIsSpace c) = true) :
    stripPunctuation l = l := by
  rw [stripPunctuation]
  rw [List.map_congr_left (fun c hc => if_pos (h c hc))]
  exact List.map_id l

theorem collapseWs_mem : ∀ (l : List Char) (c : Char), c ∈ collapseWs l →
    c = ' ' ∨ (c ∈ l ∧ uIsSpace c = false) := by
  intro l
  induction l using collapseWs.induct with
  | case1 => intro c h; simp [collapseWs] at h
  | case2 d hd => intro c h; simp [collapseWs, hd] at h; subst h; exact Or.inl rfl
  | case3 d hd =>
    intro c h
    simp [collapseWs, hd] at h
    subst h
    refine Or.inr ⟨List.mem_cons_self _ _, ?_⟩
    simpa using hd
  | case4 a b rest hab ih =>
    intro c h
    rw [collapseWs, if_pos hab] at h
    rcases ih c h with h | ⟨hm, hs⟩
    · exact Or.inl h
    · exact Or.inr ⟨List.mem_cons_of_mem a hm, hs⟩
  | case5 a b rest hab ih =>
    intro c h
    rw [collapseWs, if_neg hab] at h
    rcases List.mem_cons.mp h with h | h
    · by_cases hsa : uIsSpace a
      · rw [if_pos hsa] at h; exact Or.inl h
      · rw [if_neg hsa] at h
        exact Or.inr ⟨by rw [h]; exact List.mem_cons_self _ _,
          by rw [h]; simpa using hsa⟩
    · rcases ih c h with h | ⟨hm, hs⟩
      · exact Or.inl h
      · exact Or.inr ⟨List.mem_cons_of_mem a hm, hs⟩

theorem uIsSpace_mark (c : Char) : uIsSpace (if uIsSpace c then ' ' else c) = uIsSpace c := by
  by_cases h : uIsSpace c
  · rw [if_pos h, h]; decide
  · rw [if_neg h]

theorem collapseWs_head? : ∀ (l : List Char),
    (collapseWs l).head? = l.head?.map (fun c => if uIsSpace c then ' ' else c) := by
  intro l
  induction l using collapseWs.induct with
  | case1 => simp [collapseWs]
  | case2 d hd => simp [collapseWs, hd]
  | case3 d hd => simp [collapseWs, hd]
  | case4 a b rest hab ih =>
    rw [collapseWs, if_pos hab, ih]
    simp only [Bool.and_eq_true] at hab
    simp [hab.1, hab.2]
  | case5 a b rest hab ih =>
    rw [collapseWs, if_neg hab]
    simp

theorem collapseWs_chain : ∀ (l : List Char),
    (collapseWs l).Chain' (fun a b => ¬(uIsSpace a = true ∧ uIsSpace b = true)) := by
  intro l
  induction l using collapseWs.induct with
  | case1 => simp [collapseWs]
  | case2 d hd => simp [collapseWs, hd]
  | case3 d hd => simp [collapseWs, hd]
  | case4 a b rest hab ih => rw [collapseWs, if_pos hab]; exact ih
  | case5 a b rest hab ih =>
    rw [collapseWs, if_neg hab]
    refine List.chain'_cons'.mpr ⟨?_, ih⟩
    intro y hy
    rw [collapseWs_head? (b :: rest)] at hy
    simp only [List.head?_cons, Option.map_some', Option.mem_def, Option.some.injEq] at hy
    intro ⟨h1, h2⟩
    rw [uIsSpace_mark a] at h1
    rw [← hy, uIsSpace_mark b] at h2
    simp [h1, h2] at hab

theorem collapseWs_id : ∀ (l : List Char),
    (∀ c ∈ l, uIsSpace c = true → c = ' ') →
    l.Chain' (fun a b => ¬(uIsSpace a = true ∧ uIsSpace b = true)) →
    collapseWs l = l := by
  intro l
  induction l using collapseWs.induct with
  | case1 => intro _ _; rfl
  | case2 d hd =>
    intro hc _
    rw [collapseWs, if_pos hd, hc d (List.mem_cons_self d []) hd]
  | case3 d hd => intro _ _; rw [collapseWs, if_neg hd]
  | case4 a b rest hab ih =>
    intro hc hch
    exfalso
    simp only [Bool.and_eq_true] at hab
    exact (List.chain'_cons.mp hch).1 ⟨hab.1, hab.2⟩
  | case5 a b rest hab ih =>
    intro hc hch
    rw [collapseWs, if_neg hab]
    have htail := ih (fun c hm hs => hc c (List.mem_cons_of_mem a hm) hs)
      (List.Chain'.tail hch)
    rw [htail]
    by_cases hsa : uIsSpace a
    · rw [if_pos hsa, hc a (List.mem_cons_self a _) hsa]
    · rw [if_neg hsa]

theorem dropWhile_head_not {p : Char → Bool} : ∀ (l : List Char),
    ∀ h ∈ (l.dropWhile p).head?, p h = false := by
  intro l
  induction l with
  | nil => intro h hh; simp at hh
  | cons a as ih =>
    intro h hh
    rw [List.dropWhile_cons] at hh
    by_cases hp : p a
    · rw [if_pos hp] at hh
      exact ih h hh
    · rw [if_neg hp] at hh
      simp only [List.head?_cons, Option.mem_def, Option.some.injEq] at hh
      rw [← hh]
      simpa using hp

theorem suffix_getLast? {x y : List Char} (hs : x <:+ y) (hx : x ≠ []) :
    x.getLast? = y.getLast? := by
  obtain ⟨pfx, rfl⟩ := hs
  rw [List.getLast?_append]
  cases he : x.getLast? with
  | none => exact absurd (List.getLast?_eq_none_iff.mp he) hx
  | some v => simp

theorem jsTrim_subset {l : List Char} {c : Char} (h : c ∈ jsTrim l) : c ∈ l := by
  rw [jsTrim] at h
  rw [List.mem_reverse] at h
  have h2 := (List.dropWhile_suffix uIsSpace).subset h
  rw [List.mem_reverse] at h2
  exact (List.dropWhile_suffix uIsSpace).subset h2

theorem jsTrim_chain {R : Char → Char → Prop} (hsym : ∀ a b, R a b → R b a)
    {l : List Char} (h : l.Chain' R) : (jsTrim l).Chain' R := by
  rw [jsTrim]
  have h1 : (l.dropWhile uIsSpace).Chain' R :=
    h.suffix (List.dropWhile_suffix uIsSpace)
  have h2 : ((l.dropWhile uIsSpace).reverse).Chain' R :=
    List.chain'_reverse.mpr (h1.imp (fun a b hr => hsym a b hr))
  have h3 := h2.suffix (List.dropWhile_suffix uIsSpace)
  exact List.chain'_reverse.mpr (h3.imp (fun a b hr => hsym a b hr))

theorem jsTrim_last_not (l : List Char) :
    ∀ h ∈ (jsTrim l).getLast?, uIsSpace h = false := by
  intro h hh
  rw [jsTrim, List.getLast?_reverse] at hh
  exact dropWhile_head_not _ h hh

theorem jsTrim_head_not (l : List Char) :
    ∀ h ∈ (jsTrim l).head?, uIsSpace h = false := by
  intro h hh
  rw [jsTrim, List.head?_reverse] at hh
  set x := (l.dropWhile uIsSpace).reverse.dropWhile uIsSpace with hx
  cases hxe : x with
  | nil => rw [hxe] at hh; simp at hh
  | cons a as =>
    have hne : x ≠ [] := by rw [hxe]; simp
    rw [suffix_getLast? (hx ▸ List.dropWhile_suffix uIsSpace) hne] at hh
    rw [List.getLast?_reverse] at hh
    exact dropWhile_head_not _ h hh

theorem jsTrim_id {l : List Char}
    (hh : ∀ h ∈ l.head?, uIsSpace h = false)
    (hl : ∀ h ∈ l.getLast?, uIsSpace h = false) : jsTrim l = l := by
  rw [jsTrim]
  have h1 : l.dropWhile uIsSpace = l := by
    cases l with
    | nil => rfl
    | cons a as =>
      rw [List.dropWhile_cons, if_neg]
      simp [hh a rfl]
  rw [h1]
  have h2 : l.reverse.dropWhile uIsSpace = l.reverse := by
    cases he : l.reverse with
    | nil => rfl
    | cons a as =>
      rw [List.dropWhile_cons, if_neg]
      have : a ∈ l.getLast? := by
        rw [← List.head?_reverse, he]; rfl
      simp [hl a this]
  rw [h2, List.reverse_reverse]

theorem nfkd_id {l : List Char} (h : ∀ c ∈ l, nfkdChar c = [c]) : nfkd l = l := by
  induction l with
  | nil => rfl
  | cons a as ih =>
    have hta : nfkd as = as := ih (fun c hc => h c (List.mem_cons_of_mem a hc))
    rw [nfkd, List.flatMap_cons, h a (List.mem_cons_self a as)]
    rw [nfkd] at hta
    rw [hta]
    rfl

theorem or_space_step {A B : List Char} (f : ∀ c ∈ B, c = ' ' ∨ c ∈ A) {c : Char}
    (h : c = ' ' ∨ c ∈ B) : c = ' ' ∨ c ∈ A := by
  rcases h with h | h
  · exact Or.inl h
  · exact f c h

theorem normalizeWhitespace_chain (y : List Char) :
    (normalizeWhitespace y).Chain' (fun a b => ¬(uIsSpace a = true ∧ uIsSpace b = true)) :=
  jsTrim_chain (fun _ _ hab h => hab ⟨h.2, h.1⟩) (collapseWs_chain y)

theorem normalizeWhitespace_head_not (y : List Char) :
    ∀ h ∈ (normalizeWhitespace y).head?, uIsSpace h = false :=
  jsTrim_head_not _

theorem normalizeWhitespace_last_not (y : List Char) :
    ∀ h ∈ (normalizeWhitespace y).getLast?, uIsSpace h = false :=
  jsTrim_last_not _

theorem normalizeWhitespace_mem {y : List Char} {c : Char}
    (h : c ∈ normalizeWhitespace y) : c = ' ' ∨ (c ∈ y ∧ uIsSpace c = false) :=
  collapseWs_mem y c (jsTrim_subset h)

theorem canon_pipeline {s : List Char}
    (hsfix : ∀ c ∈ s, nfkdChar c = [c] ∧ jsLower c = c) :
    Canon (normalizeWhitespace (stripPunctuation (stripMentionsAndTags (stripUrls s)))) := by
  have hmem : ∀ c ∈ stripMentionsAndTags (stripUrls s), c = ' ' ∨ c ∈ s := by
    intro c hc
    have s0 := replaceAll_mem tryTag (fun p t mt r h => tryTag_suffix h) hc
    have s1 := or_space_step (fun c hc => replaceAll_mem tryMention
      (fun p t mt r h => tryMention_suffix h) hc) s0
    have s2 := or_space_step (fun c hc => replaceAll_mem tryYoutube
      (fun p t mt r h => tryYoutube_suffix h) hc) s1
    have s3 := or_space_step (fun c hc => replaceAll_mem tryYoutu
      (fun p t mt r h => tryYoutu_suffix h) hc) s2
    have s4 := or_space_step (fun c hc => replaceAll_mem tryWww
      (fun p t mt r h => tryWww_suffix h) hc) s3
    exact or_space_step (fun c hc => replaceAll_mem tryHttp
      (fun p t mt r h => tryHttp_suffix h) hc) s4
  refine ⟨?_, normalizeWhitespace_chain _, normalizeWhitespace_head_not _,
    normalizeWhitespace_last_not _⟩
  intro c hc
  rcases normalizeWhitespace_mem hc with h | ⟨hc3, hns⟩
  · exact Or.inl h
  rcases stripPunctuation_mem hc3 with h | ⟨hc2, hLNs⟩
  · exact Or.inl h
  have hLN : (uIsLetter c || uIsNumber c) = true := by
    rw [hns] at hLNs
    simpa using hLNs
  rcases hmem c hc2 with h | hmem2
  · exact Or.inl h
  obtain ⟨fix1, fix2⟩ := hsfix c hmem2
  exact Or.inr ⟨hLN, hns, fix1, fix2⟩

/-- The output of the fingerprint normalizer is always in canonical form. -/
theorem canon_normalizeForFingerprint (text : List Char) :
    Canon (normalizeForFingerprintL text) :=
  canon_pipeline (fun c hc => by
    obtain ⟨d, hd, hj⟩ := List.mem_map.mp hc
    obtain ⟨e, _, hde⟩ := List.mem_flatMap.mp hd
    exact hj ▸ nfkd_out_fixed e d hde)

/-- A canonical-form string is a fixed point of the fingerprint
normalizer. -/
theorem normalizeForFingerprintL_canon_fix {t : List Char} (h : Canon t) :
    normalizeForFingerprintL t = t := by
  obtain ⟨hchars, hchain, hhead, hlast⟩ := h
  have h1 : nfkd t = t := nfkd_id (by
    intro c hc
    rcases hchars c hc with rfl | hcc
    · decide
    · exact hcc.2.2.1)
  have h2 : t.map jsLower = t := by
    have : ∀ c ∈ t, jsLower c = c := by
      intro c hc
      rcases hchars c hc with rfl | hcc
      · decide
      · exact hcc.2.2.2
    rw [List.map_congr_left this]
    exact List.map_id t
  have hnone_http : ∀ p u, u ≠ [] → u <:+ t → tryHttp p u = none := by
    intro p u _ hs
    cases hcase : tryHttp p u with
    | none => rfl
    | some x =>
      exact absurd (hs.subset (tryHttp_mem_colon hcase))
        (fun hmem => canon_chars_no hchars (by decide) (by decide) hmem)
  have hnone_www : ∀ p u, u ≠ [] → u <:+ t → tryWww p u = none := by
    intro p u _ hs
    cases hcase : tryWww p u with
    | none => rfl
    | some x =>
      exact absurd (hs.subset (tryWww_mem_dot hcase))
        (fun hmem => canon_chars_no hchars (by decide) (by decide) hmem)
  have hnone_youtu : ∀ p u, u ≠ [] → u <:+ t → tryYoutu p u = none := by
    intro p u _ hs
    cases hcase : tryYoutu p u with
    | none => rfl
    | some x =>
      exact absurd (hs.subset (tryYoutu_mem_dot hcase))
        (fun hmem => canon_chars_no hchars (by decide) (by decide) hmem)
  have hnone_youtube : ∀ p u, u ≠ [] → u <:+ t → tryYoutube p u = none := by
    intro p u _ hs
    cases hcase : tryYoutube p u with
    | none => rfl
    | some x =>
      exact absurd (hs.subset (tryYoutube_mem_dot hcase))
        (fun hmem => canon_chars_no hchars (by decide) (by decide) hmem)
  have hnone_mention : ∀ p u, u ≠ [] → u <:+ t → tryMention p u = none := by
    intro p u _ hs
    cases hcase : tryMention p u with
    | none => rfl
    | some x =>
      exact absurd (hs.subset (tryMention_mem_at hcase))
        (fun hmem => canon_chars_no hchars (by decide) (by decide) hmem)
  have hnone_tag : ∀ p u, u ≠ [] → u <:+ t → tryTag p u = none := by
    intro p u _ hs
    cases hcase : tryTag p u with
    | none => rfl
    | some x =>
      exact absurd (hs.subset (tryTag_mem_hash hcase))
        (fun hmem => canon_chars_no hchars (by decide) (by decide) hmem)
  have hsu : stripUrls t = t := by
    rw [stripUrls, replaceAll_id tryHttp hnone_http, replaceAll_id tryWww hnone_www,
      replaceAll_id tryYoutu hnone_youtu, replaceAll_id tryYoutube hnone_youtube]
  have hsm : stripMentionsAndTags t = t := by
    rw [stripMentionsAndTags, replaceAll_id tryMention hnone_mention,
      replaceAll_id tryTag hnone_tag]
  have hspt : stripPunctuation t = t := stripPunctuation_id (by
    intro c hc
    rcases hchars c hc with rfl | hcc
    · decide
    · rw [hcc.1]
      rfl)
  have hcw : collapseWs t = t := collapseWs_id t (fun c hc hs => by
    rcases hchars c hc with rfl | hcc
    · rfl
    · rw [hcc.2.1] at hs
      exact absurd hs (by simp)) hchain
  have htr : jsTrim t = t := jsTrim_id hhead hlast
  rw [normalizeForFingerprintL, h1, h2, hsu, hsm, hspt, normalizeWhitespace, hcw, htr]

/-- Idempotence of the fingerprint normalizer at the character-list level. -/
theorem normalizeForFingerprintL_idem (x : List Char) :
    normalizeForFingerprintL (normalizeForFingerprintL x) = normalizeForFingerprintL x :=
  normalizeForFingerprintL_canon_fix (canon_normalizeForFingerprint x)

-- Definitional unfolding of the normalizer on an abstract argument makes
-- the unifier explore the whole scanner pipeline; all reasoning from here
-- on goes through the lemmas above, so the pipeline is sealed.  (Concrete
-- evaluations `unseal` it locally.)
attribute [irreducible] normalizeForFingerprintL

/-! ### Data model of `scoring.ts` / `youtube.ts` -/

/-- A JavaScript value as far as `safeStr` / `??` can observe it: a string,
a nullish value (`null`/`undefined`), or any other non-string value. -/
inductive JsVal where
  | str (s : String)
  | nullish
  | nonstring
deriving DecidableEq

/-- `safeStr`: `typeof x === "string" ? x : ""`. -/
def safeStr : JsVal → String
  | JsVal.str s => s
  | _ => ""

/-- The `??` operator: keeps the left operand unless it is nullish. -/
def jsCoalesce : JsVal → JsVal → JsVal
  | JsVal.nullish, y => y
  | x, _ => x

/-- `YouTubeComment` from `youtube.ts`; the body text is a `JsVal` so that
malformed inputs (missing or non-string `text`) can be expressed.  The
optional fields that the scorer never reads are omitted. -/
structure YouTubeComment where
  id : String
  author : String
  text : JsVal
  likeCount : Int
  publishedAt : String
deriving DecidableEq

/-- `ScoredComment`: the spread of the input comment plus `botScore` and
`flags`. -/
structure ScoredComment where
  id : String
  author : String
  text : JsVal
  likeCount : Int
  publishedAt : String
  botScore : Int
  flags : List String
deriving DecidableEq

/-- `safeStr((c as any).text ?? (c as any).comment ?? "")`.  The `comment`
property does not exist on `YouTubeComment`, so it reads as `undefined`
(nullish). -/
def commentText (c : YouTubeComment) : String :=
  safeStr (jsCoalesce c.text (jsCoalesce JsVal.nullish (JsVal.str "")))

/-! ### Detectors of `scoring.ts` -/

/-- `clamp(n, lo, hi) = Math.max(lo, Math.min(hi, n))` on integers. -/
def clampI (n lo hi : Int) : Int := max lo (min hi n)

/-- `clamp` on (exact) rationals. -/
def clampQ (n lo hi : ℚ) : ℚ := max lo (min hi n)

/-- `Math.round`: floor of `q + 1/2` (exact for the rationals the scorer
produces). -/
def jsRound (q : ℚ) : Int := Rat.floor (q + 1 / 2)

/-- The regex alternation of `extractUrls`, tried in source order. -/
def tryAnyUrl (prev : Option Char) (l : List Char) : Option (List Char × List Char) :=
  match tryHttp prev l with
  | some x => some x
  | none =>
    match tryWww prev l with
    | some x => some x
    | none =>
      match tryYoutu prev l with
      | some x => some x
      | none => tryYoutube prev l

/-- `extractUrls`: the `exec` loop collecting every URL-shaped match. -/
def extractUrls (l : List Char) : List (List Char) := matchAll tryAnyUrl l

def CONTACT_BAIT : List String :=
  ["whatsapp", "telegram", "t.me", "wa.me", "inbox", "dm me", "message me",
   "text me", "contact me", "call me", "reach me", "my number"]

def PROMO_BAIT : List String :=
  ["subscribe", "sub4sub", "follow me", "check my channel", "visit my channel",
   "support my channel", "like and subscribe", "join my channel"]

def SCAM_GIVEAWAY : List String :=
  ["giveaway", "winner", "won", "congratulations", "claim", "prize", "gift",
   "free", "limited offer", "urgent", "click", "link in bio"]

def CRYPTO_INVEST : List String :=
  ["crypto", "bitcoin", "btc", "eth", "usdt", "forex", "investment", "trading",
   "profit", "earn", "double", "guaranteed", "airdrop"]

def LINK_SHORTENERS : List String :=
  ["bit.ly", "tinyurl.com", "t.co", "goo.gl", "ow.ly", "is.gd", "cutt.ly",
   "rb.gy", "rebrand.ly", "shorturl.at"]

/-- `includesAny`: the needles (in list order) that occur as substrings. -/
def includesAny (textLower : List Char) (needles : List String) : List String :=
  needles.filter (fun n => decide (n.data <:+: textLower))

/-- `LINK_SHORTENERS.find(d => textLower.includes(d))`. -/
def findShortener (textLower : List Char) : Option String :=
  LINK_SHORTENERS.find? (fun d => decide (d.data <:+: textLower))

/-- The ASCII class `[A-Za-z]`. -/
def asciiLetter (c : Char) : Bool :=
  (0x41 ≤ c.toNat && c.toNat ≤ 0x5A) || (0x61 ≤ c.toNat && c.toNat ≤ 0x7A)

/-- The ASCII class `[A-Z]`. -/
def asciiUpper (c : Char) : Bool := 0x41 ≤ c.toNat && c.toNat ≤ 0x5A

/-- The regex class `\d`. -/
def digitChar (c : Char) : Bool := 0x30 ≤ c.toNat && c.toNat ≤ 0x39

/-- `uppercaseRatio`: uppercase Latin letters over all Latin letters, 0 when
there are none. -/
def uppercaseRatio (l : List Char) : ℚ :=
  let letters := l.countP asciiLetter
  if letters = 0 then 0 else (l.countP asciiUpper : ℚ) / letters

/-- `emojiCount` (the supported-`\p{Extended_Pictographic}` branch). -/
def emojiCount (l : List Char) : Nat := l.countP uIsPicto

/-- The punctuation class of signal 12:
`[!?.,:;'"“”‘’()\[\]{}]` (given by code point). -/
def punctClass (c : Char) : Bool :=
  ([0x21, 0x3F, 0x2E, 0x2C, 0x3A, 0x3B, 0x27, 0x22, 0x201C, 0x201D, 0x2018,
    0x2019, 0x28, 0x29, 0x5B, 0x5D, 0x7B, 0x7D] : List Nat).contains c.toNat

/-- The email local-part class `[A-Z0-9._%+-]` (case-insensitive). -/
def localClass (c : Char) : Bool :=
  asciiLetter c || digitChar c || c == '.' || c == '_' || c == '%' || c == '+' ||
  c == '-'

/-- The email domain class `[A-Z0-9.-]` (case-insensitive). -/
def domainClass (c : Char) : Bool :=
  asciiLetter c || digitChar c || c == '.' || c == '-'

def twoAlpha : List Char → Bool
  | a :: b :: _ => asciiLetter a && asciiLetter b
  | _ => false

/-- After `@`: some split of a `[A-Z0-9.-]+` run, then `.`, then
`[A-Z]{2,}` — the backtracking search of the email regex. -/
def emailDomainGo : Nat → List Char → Bool
  | _, [] => false
  | seen, c :: cs =>
    (c == '.' && decide (1 ≤ seen) && twoAlpha cs) ||
    (domainClass c && emailDomainGo (seen + 1) cs)

/-- `hasEmail`: `/[A-Z0-9._%+-]+@[A-Z0-9.-]+\.[A-Z]{2,}/i.test(s)` — a match
exists at some position. -/
def hasEmailGo : Option Char → List Char → Bool
  | _, [] => false
  | prev, c :: cs =>
    (c == '@' &&
      (match prev with
       | some p => localClass p
       | none => false) &&
      emailDomainGo 0 cs) ||
    hasEmailGo (some c) cs

def hasEmail (l : List Char) : Bool := hasEmailGo none l

/-- Longest run of consecutive `\d` characters (for `/\d{10,15}/g`: a match
exists iff some run has length ≥ 10). -/
def maxDigitRunGo : Nat → Nat → List Char → Nat
  | best, cur, [] => max best cur
  | best, cur, c :: cs =>
    if digitChar c then maxDigitRunGo best (cur + 1) cs
    else maxDigitRunGo (max best cur) 0 cs

/-- `hasPhoneLike`: strip to `[\d+]`, then `/^\+\d{8,15}$/` on the stripped
string, or a run of 10+ digits in the original text. -/
def hasPhoneLike (l : List Char) : Bool :=
  let cleaned := l.filter (fun c => digitChar c || c == '+')
  if cleaned.isEmpty then false
  else
    (match cleaned with
     | '+' :: ds => ds.all digitChar && decide (8 ≤ ds.length) && decide (ds.length ≤ 15)
     | _ => false) ||
    decide (10 ≤ maxDigitRunGo 0 0 l)

/-- `repeatedCharRun`'s loop: `best`/`cur` over positions `1..`. -/
def repeatedCharRunGo : Char → Nat → Nat → List Char → Nat
  | _, best, _, [] => best
  | p, best, cur, c :: cs =>
    if c = p then repeatedCharRunGo c (max best (cur + 1)) (cur + 1) cs
    else repeatedCharRunGo c best 1 cs

/-- `repeatedCharRun` (returns 1 on the empty string, as the source's
initial `best = 1` does). -/
def repeatedCharRun : List Char → Nat
  | [] => 1
  | c :: cs => repeatedCharRunGo c 1 1 cs

/-- Adjacent equal words in `normalizeWhitespace(s.toLowerCase()).split(" ")
.filter(Boolean)`. -/
def adjacentDupWords : List (List Char) → Nat
  | a :: b :: rest => (if a = b then 1 else 0) + adjacentDupWords (b :: rest)
  | _ => 0

def repeatedWordCount (l : List Char) : Nat :=
  adjacentDupWords
    (((normalizeWhitespace (l.map jsLower)).splitOn ' ').filter (fun w => !w.isEmpty))

/-- `hashtagCount`: number of `/#[\p{L}\p{N}_]+/gu` matches. -/
def hashtagCount (l : List Char) : Nat := (matchAll tryTag l).length

/-- `isMostlyNonLetters`: letters under 15% of total length, for length ≥ 10. -/
def isMostlyNonLetters (l : List Char) : Bool :=
  let letters := l.countP uIsLetter
  let total := l.length
  if total < 10 then false else decide ((letters : ℚ) / total < 0.15)

/-- The duplicate-signal weight: `clamp(25 + Math.floor((freq - 3) * 6), 25, 60)`
(the `Math.floor` argument is an integer, hence dropped). -/
def dupBoost (freq : Nat) : Int := clampI (25 + ((freq : Int) - 3) * 6) 25 60

/-! ### The scorer -/

/-- The per-index fingerprint (`fps[idx]` in the source). -/
def fingerprintOf (c : YouTubeComment) : List Char :=
  normalizeForFingerprintL (commentText c).data

/-- The fingerprint frequency `Map`, modelled by its lookup function: only
fingerprints of length ≥ 18 are counted. -/
def fpCount (comments : List YouTubeComment) (fp : List Char) : Nat :=
  (comments.map fingerprintOf).countP (fun g => decide (g = fp) && decide (18 ≤ g.length))

/-- Signal 1 — links: `clamp(20 + urls.length * 10, 20, 55)` and a
`contains link(s)` flag. -/
def urlSignal (textTrim : List Char) : Int × List String :=
  let urls := extractUrls textTrim
  if 0 < urls.length then
    (clampI (20 + (urls.length : Int) * 10) 20 55,
     [if urls.length = 1 then "contains link"
      else "contains links (" ++ toString urls.length ++ ")"])
  else (0, [])

/-- Signal 2 — link shorteners: +18. -/
def shortenerSignal (textLower : List Char) : Int × List String :=
  if (findShortener textLower).isSome then (18, ["link shortener"]) else (0, [])

/-- Signal 3 — email: +18. -/
def emailSignal (textTrim : List Char) : Int × List String :=
  if hasEmail textTrim then (18, ["email present"]) else (0, [])

/-- Signal 4 — phone-like: +30. -/
def phoneSignal (textTrim : List Char) : Int × List String :=
  if hasPhoneLike textTrim then (30, ["phone number pattern"]) else (0, [])

/-- Signal 5 — contact bait: +28. -/
def contactSignal (textLower : List Char) : Int × List String :=
  if 0 < (includesAny textLower CONTACT_BAIT).length then (28, ["contact bait"])
  else (0, [])

/-- Signal 6 — scam/giveaway keywords: `clamp(14 + hits * 4, 14, 30)`. -/
def scamSignal (textLower : List Char) : Int × List String :=
  let n := (includesAny textLower SCAM_GIVEAWAY).length
  if 0 < n then (clampI (14 + (n : Int) * 4) 14 30, ["giveaway/scam keywords"])
  else (0, [])

/-- Signal 7 — crypto/invest keywords: `clamp(14 + hits * 4, 14, 30)`. -/
def cryptoSignal (textLower : List Char) : Int × List String :=
  let n := (includesAny textLower CRYPTO_INVEST).length
  if 0 < n then (clampI (14 + (n : Int) * 4) 14 30, ["crypto/invest keywords"])
  else (0, [])

/-- Signal 8 — self-promo keywords: `clamp(10 + hits * 3, 10, 22)`. -/
def promoSignal (textLower : List Char) : Int × List String :=
  let n := (includesAny textLower PROMO_BAIT).length
  if 0 < n then (clampI (10 + (n : Int) * 3) 10 22, ["self-promo bait"])
  else (0, [])

/-- Signal 9 — duplicate/template: `dupBoost` and the
`template/duplicate x{freq}` flag when the batch frequency is ≥ 3. -/
def dupSignal (freq : Nat) : Int × List String :=
  if 3 ≤ freq then (dupBoost freq, ["template/duplicate x" ++ toString freq])
  else (0, [])

/-- Signal 10 — emoji burst: +12/+7. -/
def emojiSignal (textTrim : List Char) : Int × List String :=
  let em := emojiCount textTrim
  if 7 ≤ em then ((if 15 ≤ em then 12 else 7), ["many emojis (" ++ toString em ++ ")"])
  else (0, [])

/-- Signal 11 — shouting: +10/+7 when ≥ 10 Latin letters and the uppercase
ratio is ≥ 0.85. -/
def uppercaseSignal (textTrim : List Char) : Int × List String :=
  let up := uppercaseRatio textTrim
  let letterCount := textTrim.countP asciiLetter
  if 10 ≤ letterCount ∧ (0.85 : ℚ) ≤ up then
    ((if (0.95 : ℚ) ≤ up then 10 else 7),
     ["high uppercase (" ++ toString (jsRound (up * 100)) ++ "%)"])
  else (0, [])

/-- Signal 12 — punctuation burst: +6 for ≥ 10 punctuation characters. -/
def punctSignal (textTrim : List Char) : Int × List String :=
  if 10 ≤ textTrim.countP punctClass then (6, ["punctuation burst"]) else (0, [])

/-- Signal 13 — repeated characters: +8/+5 for a run of ≥ 6. -/
def repeatSignal (textTrim : List Char) : Int × List String :=
  let run := repeatedCharRun textTrim
  if 6 ≤ run then ((if 10 ≤ run then 8 else 5), ["repeated chars"]) else (0, [])

/-- Signal 14 — repeated words: +6 for ≥ 2 adjacent duplicates. -/
def repWordSignal (textTrim : List Char) : Int × List String :=
  if 2 ≤ repeatedWordCount textTrim then (6, ["repeated words"]) else (0, [])

/-- Signal 15 — hashtags: +6 for ≥ 5. -/
def hashtagSignal (textTrim : List Char) : Int × List String :=
  let tags := hashtagCount textTrim
  if 5 ≤ tags then (6, ["many hashtags (" ++ toString tags ++ ")"]) else (0, [])

/-- Signal 16 — symbol-dominant text: +6. -/
def symbolSignal (textTrim : List Char) : Int × List String :=
  if isMostlyNonLetters textTrim then (6, ["mostly symbols/emojis"]) else (0, [])

/-- Signal 17 — length extremes: +3 (≤ 4 chars) or +4 (≥ 280 chars). -/
def lengthSignal (textTrim : List Char) : Int × List String :=
  let len := textTrim.length
  if len ≤ 4 then (3, ["very short"])
  else if 280 ≤ len then (4, ["very long"])
  else (0, [])

/-- The duplicate frequency consulted by signal 9:
`fp.length >= 18 ? (fpCount.get(fp) ?? 0) : 0`. -/
def scoreFreq (freqTable : List Char → Nat) (c : YouTubeComment) : Nat :=
  if 18 ≤ (fingerprintOf c).length then freqTable (fingerprintOf c) else 0

/-- One comment's pass through every detector, in source order (each signal
block of the source is the correspondingly named `…Signal` definition).
Points accumulate additively and each triggered signal appends its flag;
the final score is `clamp(Math.round(points), 0, 100)` (points is an
integer, so the rounding is dropped). -/
def scoreOne (freqTable : List Char → Nat) (c : YouTubeComment) : ScoredComment :=
  let textTrim := jsTrim (commentText c).data
  let textLower := textTrim.map jsLower
  let freq := scoreFreq freqTable c
  { id := c.id, author := c.author, text := c.text, likeCount := c.likeCount,
    publishedAt := c.publishedAt,
    botScore := clampI
      ((urlSignal textTrim).1 + (shortenerSignal textLower).1 + (emailSignal textTrim).1 +
        (phoneSignal textTrim).1 + (contactSignal textLower).1 + (scamSignal textLower).1 +
        (cryptoSignal textLower).1 + (promoSignal textLower).1 + (dupSignal freq).1 +
        (emojiSignal textTrim).1 + (uppercaseSignal textTrim).1 + (punctSignal textTrim).1 +
        (repeatSignal textTrim).1 + (repWordSignal textTrim).1 + (hashtagSignal textTrim).1 +
        (symbolSignal textTrim).1 + (lengthSignal textTrim).1) 0 100,
    flags :=
      (urlSignal textTrim).2 ++ (shortenerSignal textLower).2 ++ (emailSignal textTrim).2 ++
        (phoneSignal textTrim).2 ++ (contactSignal textLower).2 ++ (scamSignal textLower).2 ++
        (cryptoSignal textLower).2 ++ (promoSignal textLower).2 ++ (dupSignal freq).2 ++
        (emojiSignal textTrim).2 ++ (uppercaseSignal textTrim).2 ++ (punctSignal textTrim).2 ++
        (repeatSignal textTrim).2 ++ (repWordSignal textTrim).2 ++ (hashtagSignal textTrim).2 ++
        (symbolSignal textTrim).2 ++ (lengthSignal textTrim).2 }

/-- `scoreComments`: build the fingerprint frequency table over the whole
batch, then score each comment (order preserving). -/
def scoreComments (comments : List YouTubeComment) : List ScoredComment :=
  comments.map (scoreOne (fpCount comments))

/-! ### The aggregator -/

structure Summary where
  total : Nat
  suspicious : Nat
  suspiciousPct : ℚ
  topFlags : List (String × Nat)
deriving DecidableEq

/-- One `counts.set(f, (counts.get(f) ?? 0) + 1)` step on the
insertion-ordered entry list of a JS `Map`. -/
def bumpFlag : List (String × Nat) → String → List (String × Nat)
  | [], f => [(f, 1)]
  | (g, n) :: rest, f =>
    if g = f then (g, n + 1) :: rest else (g, n) :: bumpFlag rest f

/-- The flag-count `Map` of `summarize` as its insertion-ordered entry
list. -/
def flagEntries (scored : List ScoredComment) : List (String × Nat) :=
  scored.foldl (fun acc c => c.flags.foldl bumpFlag acc) []

/-- `summarize(scored, threshold = 60)`: totals, one-decimal suspicious
percentage, and the top-12 flags sorted by count descending
(`Array.prototype.sort` is stable, hence `mergeSort`). -/
def summarize (scored : List ScoredComment) (threshold : Int := 60) : Summary :=
  let total := scored.length
  let suspicious := (scored.filter (fun c => decide (threshold ≤ c.botScore))).length
  let suspiciousPct : ℚ :=
    if total = 0 then 0 else (jsRound ((suspicious : ℚ) / total * 1000) : ℚ) / 10
  let topFlags := ((flagEntries scored).mergeSort (fun a b => decide (b.2 ≤ a.2))).take 12
  { total := total, suspicious := suspicious, suspiciousPct := suspiciousPct,
    topFlags := topFlags }

/-- The full stream of flags emitted over the batch, in emission order:
this is the order in which `summarize`s nested `for` loops first see each
flag. -/
def allFlags (scored : List ScoredComment) : List String :=
  (scored.map ScoredComment.flags).flatten

/-- The count a JS `Map` entry list associates to a key (`counts.get(g) ?? 0`). -/
def lookupN (acc : List (String × Nat)) (g : String) : Nat :=
  ((acc.find? (fun e => decide (e.1 = g))).map Prod.snd).getD 0

/-! ### Secondary-classifier sanitization (`gemini.ts`) and merge
(`route.ts`) -/

/-- One entry of the parsed `per_comment` array before sanitization:
`idx` as a number, `ai_score` possibly missing, an arbitrary `label`
string, a possibly missing `reason`. -/
structure RawOpinion where
  idx : Int
  ai_score : Option ℚ
  label : String
  reason : Option String
deriving DecidableEq

/-- A sanitized `per_comment` entry (`GeminiPerComment` in the source). -/
structure GeminiPerComment where
  idx : Int
  ai_score : ℚ
  label : String
  reason : String
deriving DecidableEq

/-- The per-entry sanitization in `geminiBotAnalyze`:
`clamp(Number(p.ai_score ?? 0), 0, 100)`, label whitelist with fallback
`"uncertain"`, `String(p.reason ?? "")`. -/
def sanitizeOpinion (p : RawOpinion) : GeminiPerComment :=
  { idx := p.idx
    ai_score := clampQ (p.ai_score.getD 0) 0 100
    label :=
      if p.label = "bot" ∨ p.label = "human" ∨ p.label = "uncertain" then p.label
      else "uncertain"
    reason := p.reason.getD "" }

/-- The `ai` attachment on a candidate (`score: null` in the placeholder is
`none`). -/
structure AiOnComment where
  score : Option ℚ
  label : String
  reason : String
deriving DecidableEq

/-- `{ score: null, label: "uncertain", reason: "" }`. -/
def uncertainPlaceholder : AiOnComment :=
  { score := none, label := "uncertain", reason := "" }

/-- The `aiMap` lookup: the `Map` is built by successive `set` calls, so
the last entry with a given index wins. -/
def aiMapGet (per : List GeminiPerComment) (j : Int) : Option GeminiPerComment :=
  per.reverse.find? (fun p => decide (p.idx = j))

/-- The merge loop of `route.ts`: each candidate at position `j` gets the
returned opinion with index `j`, or the uncertain placeholder. -/
def mergeAi (candidates : List ScoredComment) (per : List GeminiPerComment) :
    List (ScoredComment × AiOnComment) :=
  candidates.mapIdx (fun j c =>
    (c,
     match aiMapGet per (j : Int) with
     | some a => { score := some a.ai_score, label := a.label, reason := a.reason }
     | none => uncertainPlaceholder))

/-! ### Claim theorems -/

/-- `normalizeForFingerprint` at the `String` level (the inner `safeStr` is
the identity on an actual string argument). -/
def normalizeForFingerprint (text : String) : String :=
  ⟨normalizeForFingerprintL text.data⟩

/-- C4: the fingerprint normalizer is idempotent: for every input string
`x`, `normalize(normalize(x)) = normalize(x)`. -/
theorem normalizeForFingerprint_idem (x : String) :
    normalizeForFingerprint (normalizeForFingerprint x) = normalizeForFingerprint x :=
  calc normalizeForFingerprint (normalizeForFingerprint x)
      = ⟨normalizeForFingerprintL (normalizeForFingerprintL x.data)⟩ := rfl
    _ = ⟨normalizeForFingerprintL x.data⟩ :=
        congrArg String.mk (normalizeForFingerprintL_idem x.data)
    _ = normalizeForFingerprint x := rfl

theorem clampI_nonneg_le (n : Int) : 0 ≤ clampI n 0 100 ∧ clampI n 0 100 ≤ 100 :=
  ⟨le_max_left 0 _, max_le (by norm_num) (min_le_left 100 n)⟩

/-- The final score of `scoreOne` is a clamp of its accumulated points. -/
theorem scoreOne_botScore_clamped (tbl : List Char → Nat) (c : YouTubeComment) :
    ∃ p : Int, (scoreOne tbl c).botScore = clampI p 0 100 :=
  ⟨_, rfl⟩

/-- C1: every `ScoredComment` produced by `scoreComments` has an integer
(`Int`-typed by construction) `botScore` with `0 ≤ botScore ≤ 100`. -/
theorem scoreComments_botScore_bounded (comments : List YouTubeComment)
    (sc : ScoredComment) (h : sc ∈ scoreComments comments) :
    0 ≤ sc.botScore ∧ sc.botScore ≤ 100 := by
  rw [scoreComments] at h
  obtain ⟨c, _, rfl⟩ := List.mem_map.mp h
  obtain ⟨p, hp⟩ := scoreOne_botScore_clamped (fpCount comments) c
  rw [hp]
  exact clampI_nonneg_le p

/-- `f` is not a `template/duplicate x{k}` flag for any `k`. -/
def NotTemplate (f : String) : Prop :=
  ∀ k : Nat, f ≠ "template/duplicate x" ++ toString k

theorem notTemplate_of_head {s : String} {c : Char} (h : s.data.head? = some c)
    (hc : c ≠ 't') : NotTemplate s := by
  intro k he
  apply hc
  have h2 : s.data.head? = some 't' := by
    rw [he, String.data_append]
    rfl
  rw [h] at h2
  exact Option.some.inj h2

theorem urlSignal_notTemplate {t : List Char} {f : String} (h : f ∈ (urlSignal t).2) :
    NotTemplate f := by
  rw [urlSignal] at h
  split at h
  · simp only [List.mem_singleton] at h
    subst h
    split
    · exact notTemplate_of_head rfl (by decide)
    · exact notTemplate_of_head rfl (by decide)
  · simp at h

theorem shortenerSignal_notTemplate {t : List Char} {f : String}
    (h : f ∈ (shortenerSignal t).2) : NotTemplate f := by
  rw [shortenerSignal] at h
  split at h
  · simp only [List.mem_singleton] at h
    subst h
    exact notTemplate_of_head rfl (by decide)
  · simp at h

theorem emailSignal_notTemplate {t : List Char} {f : String}
    (h : f ∈ (emailSignal t).2) : NotTemplate f := by
  rw [emailSignal] at h
  split at h
  · simp only [List.mem_singleton] at h
    subst h
    exact notTemplate_of_head rfl (by decide)
  · simp at h

theorem phoneSignal_notTemplate {t : List Char} {f : String}
    (h : f ∈ (phoneSignal t).2) : NotTemplate f := by
  rw [phoneSignal] at h
  split at h
  · simp only [List.mem_singleton] at h
    subst h
    exact notTemplate_of_head rfl (by decide)
  · simp at h

theorem contactSignal_notTemplate {t : List Char} {f : String}
    (h : f ∈ (contactSignal t).2) : NotTemplate f := by
  rw [contactSignal] at h
  split at h
  · simp only [List.mem_singleton] at h
    subst h
    exact notTemplate_of_head rfl (by decide)
  · simp at h

theorem scamSignal_notTemplate {t : List Char} {f : String}
    (h : f ∈ (scamSignal t).2) : NotTemplate f := by
  rw [scamSignal] at h
  split at h
  · simp only [List.mem_singleton] at h
    subst h
    exact notTemplate_of_head rfl (by decide)
  · simp at h

theorem cryptoSignal_notTemplate {t : List Char} {f : String}
    (h : f ∈ (cryptoSignal t).2) : NotTemplate f := by
  rw [cryptoSignal] at h
  split at h
  · simp only [List.mem_singleton] at h
    subst h
    exact notTemplate_of_head rfl (by decide)
  · simp at h

theorem promoSignal_notTemplate {t : List Char} {f : String}
    (h : f ∈ (promoSignal t).2) : NotTemplate f := by
  rw [promoSignal] at h
  split at h
  · simp only [List.mem_singleton] at h
    subst h
    exact notTemplate_of_head rfl (by decide)
  · simp at h

theorem emojiSignal_notTemplate {t : List Char} {f : String}
    (h : f ∈ (emojiSignal t).2) : NotTemplate f := by
  rw [emojiSignal] at h
  split at h
  · simp only [List.mem_singleton] at h
    subst h
    exact notTemplate_of_head rfl (by decide)
  · simp at h

theorem uppercaseSignal_notTemplate {t : List Char} {f : String}
    (h : f ∈ (uppercaseSignal t).2) : NotTemplate f := by
  rw [uppercaseSignal] at h
  split at h
  · simp only [List.mem_singleton] at h
    subst h
    exact notTemplate_of_head rfl (by decide)
  · simp at h

theorem punctSignal_notTemplate {t : List Char} {f : String}
    (h : f ∈ (punctSignal t).2) : NotTemplate f := by
  rw [punctSignal] at h
  split at h
  · simp only [List.mem_singleton] at h
    subst h
    exact notTemplate_of_head rfl (by decide)
  · simp at h

theorem repeatSignal_notTemplate {t : List Char} {f : String}
    (h : f ∈ (repeatSignal t).2) : NotTemplate f := by
  rw [repeatSignal] at h
  split at h
  · simp only [List.mem_singleton] at h
    subst h
    exact notTemplate_of_head rfl (by decide)
  · simp at h

theorem repWordSignal_notTemplate {t : List Char} {f : String}
    (h : f ∈ (repWordSignal t).2) : NotTemplate f := by
  rw [repWordSignal] at h
  split at h
  · simp only [List.mem_singleton] at h
    subst h
    exact notTemplate_of_head rfl (by decide)
  · simp at h

theorem hashtagSignal_notTemplate {t : List Char} {f : String}
    (h : f ∈ (hashtagSignal t).2) : NotTemplate f := by
  rw [hashtagSignal] at h
  split at h
  · simp only [List.mem_singleton] at h
    subst h
    exact notTemplate_of_head rfl (by decide)
  · simp at h

theorem symbolSignal_notTemplate {t : List Char} {f : String}
    (h : f ∈ (symbolSignal t).2) : NotTemplate f := by
  rw [symbolSignal] at h
  split at h
  · simp only [List.mem_singleton] at h
    subst h
    exact notTemplate_of_head rfl (by decide)
  · simp at h

theorem lengthSignal_notTemplate {t : List Char} {f : String}
    (h : f ∈ (lengthSignal t).2) : NotTemplate f := by
  rw [lengthSignal] at h
  split at h
  · simp only [List.mem_singleton] at h
    subst h
    exact notTemplate_of_head rfl (by decide)
  · split at h
    · simp only [List.mem_singleton] at h
      subst h
      exact notTemplate_of_head rfl (by decide)
    · simp at h

/-- When the duplicate frequency is below 3, no flag of `scoreOne` is a
`template/duplicate` flag. -/
theorem scoreOne_flags_notTemplate (tbl : List Char → Nat) (c : YouTubeComment)
    (hfreq : scoreFreq tbl c < 3) :
    ∀ f ∈ (scoreOne tbl c).flags, NotTemplate f := by
  intro f hf
  rw [scoreOne] at hf
  dsimp only at hf
  simp only [List.mem_append, or_assoc] at hf
  rcases hf with hf | hf | hf | hf | hf | hf | hf | hf | hf | hf | hf | hf | hf | hf |
    hf | hf | hf
  · exact urlSignal_notTemplate hf
  · exact shortenerSignal_notTemplate hf
  · exact emailSignal_notTemplate hf
  · exact phoneSignal_notTemplate hf
  · exact contactSignal_notTemplate hf
  · exact scamSignal_notTemplate hf
  · exact cryptoSignal_notTemplate hf
  · exact promoSignal_notTemplate hf
  · rw [dupSignal, if_neg (by omega)] at hf
    simp at hf
  · exact emojiSignal_notTemplate hf
  · exact uppercaseSignal_notTemplate hf
  · exact punctSignal_notTemplate hf
  · exact repeatSignal_notTemplate hf
  · exact repWordSignal_notTemplate hf
  · exact hashtagSignal_notTemplate hf
  · exact symbolSignal_notTemplate hf
  · exact lengthSignal_notTemplate hf

/-- Fingerprints shorter than 18 characters are not keys of the frequency
table. -/
theorem fpCount_short (comments : List YouTubeComment) {fp : List Char}
    (h : fp.length < 18) : fpCount comments fp = 0 := by
  rw [fpCount]
  apply List.countP_eq_zero.mpr
  intro g _
  by_cases hg : g = fp
  · subst hg
    simp
    omega
  · simp [hg]

theorem scoreFreq_short {tbl : List Char → Nat} {c : YouTubeComment}
    (h : (fingerprintOf c).length < 18) : scoreFreq tbl c = 0 := by
  rw [scoreFreq, if_neg (by omega)]

/-- C2: a comment whose fingerprint is shorter than 18 characters is never
counted in the fingerprint frequency table and never receives a
`template/duplicate` flag.  (Its scored image in `scoreComments` is
`scoreOne (fpCount comments) c`.) -/
theorem short_fingerprint_no_template (comments : List YouTubeComment)
    (c : YouTubeComment) (hc : c ∈ comments)
    (hshort : (fingerprintOf c).length < 18) :
    fpCount comments (fingerprintOf c) = 0 ∧
    scoreOne (fpCount comments) c ∈ scoreComments comments ∧
    ∀ f ∈ (scoreOne (fpCount comments) c).flags, ∀ k : Nat,
      f ≠ "template/duplicate x" ++ toString k := by
  refine ⟨fpCount_short comments hshort, ?_, ?_⟩
  · rw [scoreComments]
    exact List.mem_map_of_mem _ hc
  · exact scoreOne_flags_notTemplate _ c (by rw [scoreFreq_short hshort]; omega)

/-- C10: a comment whose body normalizes to the empty fingerprint is never
entered into the frequency table and never receives a `template/duplicate`
flag, regardless of how many identical such comments the batch contains. -/
theorem empty_fingerprint_no_template (comments : List YouTubeComment)
    (c : YouTubeComment) (hc : c ∈ comments)
    (hempty : fingerprintOf c = []) :
    fpCount comments (fingerprintOf c) = 0 ∧
    scoreOne (fpCount comments) c ∈ scoreComments comments ∧
    ∀ f ∈ (scoreOne (fpCount comments) c).flags, ∀ k : Nat,
      f ≠ "template/duplicate x" ++ toString k := by
  have hshort : (fingerprintOf c).length < 18 := by rw [hempty]; simp
  refine ⟨fpCount_short comments hshort, ?_, ?_⟩
  · rw [scoreComments]
    exact List.mem_map_of_mem _ hc
  · exact scoreOne_flags_notTemplate _ c (by rw [scoreFreq_short hshort]; omega)

/-- For a fingerprint above the length floor, the table lookup is the plain
occurrence count of that fingerprint in the batch. -/
theorem fpCount_long (comments : List YouTubeComment) {t : List Char}
    (h : 18 ≤ t.length) :
    fpCount comments t = (comments.map fingerprintOf).count t := by
  rw [fpCount, List.count_eq_countP]
  apply List.countP_congr
  intro g _
  by_cases hg : g = t
  · subst hg
    simp [h]
  · simp [hg]

/-- When the duplicate frequency is ≥ 3, `scoreOne` pushes the
`template/duplicate x{freq}` flag. -/
theorem scoreOne_template_mem (tbl : List Char → Nat) (c : YouTubeComment)
    (hfreq : 3 ≤ scoreFreq tbl c) :
    ("template/duplicate x" ++ toString (scoreFreq tbl c)) ∈ (scoreOne tbl c).flags := by
  have hd : ("template/duplicate x" ++ toString (scoreFreq tbl c))
      ∈ (dupSignal (scoreFreq tbl c)).2 := by
    rw [dupSignal, if_pos hfreq]
    exact List.mem_singleton.mpr rfl
  rw [scoreOne]
  dsimp only
  simp only [List.mem_append, or_assoc]
  exact Or.inr (Or.inr (Or.inr (Or.inr (Or.inr (Or.inr (Or.inr (Or.inr (Or.inl hd))))))))

/-- The duplicate weight is non-decreasing in the frequency. -/
theorem dupBoost_mono {k1 k2 : Nat} (h : k1 ≤ k2) : dupBoost k1 ≤ dupBoost k2 := by
  rw [dupBoost, dupBoost, clampI, clampI]
  have hc : ((k1 : Int) : Int) ≤ (k2 : Int) := by exact_mod_cast h
  exact max_le_max le_rfl (min_le_min le_rfl (by omega))

/-- C3: in a batch where one long-enough normalized template `t` occurs
exactly `k ≥ 3` times and every other fingerprint is unique, each of the
`k` occurrences receives the `template/duplicate x{k}` flag, and the
duplicate score component `dupBoost` is non-decreasing in `k`. -/
theorem template_flagged_and_monotone (comments : List YouTubeComment)
    (t : List Char) (k : Nat) (hlen : 18 ≤ t.length)
    (hk : k = (comments.map fingerprintOf).count t) (hk3 : 3 ≤ k)
    (_huniq : ∀ c ∈ comments, fingerprintOf c ≠ t →
      (comments.map fingerprintOf).count (fingerprintOf c) = 1) :
    (∀ c ∈ comments, fingerprintOf c = t →
      ("template/duplicate x" ++ toString k) ∈ (scoreOne (fpCount comments) c).flags) ∧
    (∀ k1 k2 : Nat, k1 ≤ k2 → dupBoost k1 ≤ dupBoost k2) := by
  constructor
  · intro c _ hfp
    have hfreq : scoreFreq (fpCount comments) c = k := by
      rw [scoreFreq, hfp, if_pos hlen, fpCount_long comments hlen, hk]
    have h3 : 3 ≤ scoreFreq (fpCount comments) c := by omega
    have := scoreOne_template_mem (fpCount comments) c h3
    rwa [hfreq] at this
  · exact fun k1 k2 h => dupBoost_mono h

/-- Replace a missing or non-string body by the empty string (what the
claim means by "scored as if its body were the empty string"). -/
def sanitizeBody (c : YouTubeComment) : YouTubeComment :=
  match c.text with
  | JsVal.str _ => c
  | _ => { c with text := JsVal.str "" }

theorem commentText_sanitizeBody (c : YouTubeComment) :
    commentText (sanitizeBody c) = commentText c := by
  rw [sanitizeBody]
  cases h : c.text <;> simp [commentText, jsCoalesce, safeStr, h]

theorem fingerprintOf_sanitizeBody (c : YouTubeComment) :
    fingerprintOf (sanitizeBody c) = fingerprintOf c := by
  rw [fingerprintOf, fingerprintOf, commentText_sanitizeBody]

theorem scoreOne_view_congr (tbl1 tbl2 : List Char → Nat) (c1 c2 : YouTubeComment)
    (ht : commentText c1 = commentText c2)
    (htbl : tbl1 (fingerprintOf c1) = tbl2 (fingerprintOf c2)) :
    (scoreOne tbl1 c1).botScore = (scoreOne tbl2 c2).botScore ∧
    (scoreOne tbl1 c1).flags = (scoreOne tbl2 c2).flags := by
  have hfp : fingerprintOf c1 = fingerprintOf c2 := by
    rw [fingerprintOf, fingerprintOf, ht]
  rw [hfp] at htbl
  have hfreq : scoreFreq tbl1 c1 = scoreFreq tbl2 c2 := by
    rw [scoreFreq, scoreFreq, hfp, htbl]
  rw [scoreOne, scoreOne]
  dsimp only
  rw [ht, hfreq]
  exact ⟨rfl, rfl⟩

/-- C9: scoring is total over malformed input — a comment whose body is
missing or not a string is scored exactly as if its body were the empty
string (`sanitizeBody`), and `scoreComments` always produces one
`ScoredComment` per input (all embedded detectors are total functions). -/
theorem scoreComments_malformed_as_empty (comments : List YouTubeComment) :
    (scoreComments comments).length = comments.length ∧
    (scoreComments comments).map (fun s => (s.botScore, s.flags)) =
      (scoreComments (comments.map sanitizeBody)).map (fun s => (s.botScore, s.flags)) := by
  constructor
  · rw [scoreComments, List.length_map]
  · have htbl : ∀ fp, fpCount comments fp = fpCount (comments.map sanitizeBody) fp := by
      intro fp
      rw [fpCount, fpCount, List.map_map]
      congr 1
      apply List.map_congr_left
      intro c _
      exact (fingerprintOf_sanitizeBody c).symm
    rw [scoreComments, scoreComments, List.map_map, List.map_map, List.map_map]
    apply List.map_congr_left
    intro c _
    have h := scoreOne_view_congr (fpCount comments) (fpCount (comments.map sanitizeBody))
      c (sanitizeBody c) (commentText_sanitizeBody c).symm
      (by rw [fingerprintOf_sanitizeBody, htbl])
    simp only [Function.comp]
    rw [h.1, h.2]

unseal Rat.mul Rat.add Rat.inv Rat.sub Rat.ofScientific in
/-- C5: `summarize` counts as suspicious exactly the comments with
`botScore ≥ 60` (the shared threshold), reports
`suspiciousPct = round(suspicious / total * 1000) / 10` for `total > 0` and
`0` for an empty batch; concretely, scores `[10, 70, 85, 40, 61]` give
`suspicious = 3` and `suspiciousPct = 60`. -/
theorem summarize_suspicious_pct (scored : List ScoredComment) :
    (summarize scored 60).suspicious = scored.countP (fun c => decide (60 ≤ c.botScore)) ∧
    (summarize scored 60).suspiciousPct =
      (if scored.length = 0 then 0 else
        ((jsRound ((scored.countP (fun c => decide (60 ≤ c.botScore)) : ℚ) /
          scored.length * 1000) : ℚ) / 10)) ∧
    (summarize [⟨"", "", JsVal.nullish, 0, "", 10, []⟩, ⟨"", "", JsVal.nullish, 0, "", 70, []⟩,
      ⟨"", "", JsVal.nullish, 0, "", 85, []⟩, ⟨"", "", JsVal.nullish, 0, "", 40, []⟩,
      ⟨"", "", JsVal.nullish, 0, "", 61, []⟩] 60).suspicious = 3 ∧
    (summarize [⟨"", "", JsVal.nullish, 0, "", 10, []⟩, ⟨"", "", JsVal.nullish, 0, "", 70, []⟩,
      ⟨"", "", JsVal.nullish, 0, "", 85, []⟩, ⟨"", "", JsVal.nullish, 0, "", 40, []⟩,
      ⟨"", "", JsVal.nullish, 0, "", 61, []⟩] 60).suspiciousPct = 60 := by
  refine ⟨?_, ?_, by decide, by decide⟩
  · rw [summarize]
    dsimp only
    exact (List.countP_eq_length_filter _ _).symm
  · rw [summarize]
    dsimp only
    rw [List.countP_eq_length_filter]

/-- C6: the Summary's `total` equals the number of `ScoredComment`s it was
derived from (including the empty batch). -/
theorem summarize_total (scored : List ScoredComment) (threshold : Int) :
    (summarize scored threshold).total = scored.length := rfl


/-! ### Ranking facts for `topFlags` -/

theorem bumpFlag_keys (acc : List (String × Nat)) (f : String) :
    (bumpFlag acc f).map Prod.fst =
      if f ∈ acc.map Prod.fst then acc.map Prod.fst else acc.map Prod.fst ++ [f] := by
  induction acc with
  | nil => simp [bumpFlag]
  | cons e rest ih =>
    obtain ⟨g, n⟩ := e
    rw [bumpFlag]
    by_cases hg : g = f
    · rw [if_pos hg]
      simp [hg]
    · rw [if_neg hg]
      simp only [List.map_cons]
      rw [ih]
      by_cases hf : f ∈ rest.map Prod.fst
      · rw [if_pos hf, if_pos (by simp [hf])]
      · rw [if_neg hf, if_neg (by simp [hf, Ne.symm hg])]
        simp

theorem lookupN_nil (g : String) : lookupN [] g = 0 := rfl

theorem lookupN_cons_self (a : String) (n : Nat) (rest : List (String × Nat)) :
    lookupN ((a, n) :: rest) a = n := by
  rw [lookupN, List.find?_cons_of_pos _ (by simp)]
  rfl

theorem lookupN_cons_ne (a : String) (n : Nat) (rest : List (String × Nat))
    {g : String} (h : g ≠ a) : lookupN ((a, n) :: rest) g = lookupN rest g := by
  rw [lookupN, List.find?_cons_of_neg _ (by simp [Ne.symm h]), lookupN]

theorem bumpFlag_lookup (acc : List (String × Nat)) (f g : String) :
    lookupN (bumpFlag acc f) g =
      if g = f then lookupN acc f + 1 else lookupN acc g := by
  induction acc with
  | nil =>
    by_cases hg : g = f
    · subst hg
      rw [bumpFlag, if_pos rfl, lookupN_cons_self, lookupN_nil]
    · rw [bumpFlag, if_neg hg, lookupN_cons_ne _ _ _ hg, lookupN_nil]
  | cons e rest ih =>
    obtain ⟨a, n⟩ := e
    rw [bumpFlag]
    by_cases ha : a = f
    · subst ha
      rw [if_pos rfl]
      by_cases hg : g = a
      · subst hg
        rw [if_pos rfl, lookupN_cons_self, lookupN_cons_self]
      · rw [if_neg hg, lookupN_cons_ne _ _ _ hg, lookupN_cons_ne _ _ _ hg]
    · rw [if_neg ha]
      by_cases hg : g = a
      · subst hg
        rw [lookupN_cons_self, lookupN_cons_self, if_neg ha]
      · rw [lookupN_cons_ne _ _ _ hg, lookupN_cons_ne _ _ _ hg,
          lookupN_cons_ne _ _ _ (Ne.symm ha), ih]

theorem lookupN_of_mem : ∀ {acc : List (String × Nat)},
    (acc.map Prod.fst).Nodup → ∀ {e : String × Nat}, e ∈ acc → lookupN acc e.1 = e.2 := by
  intro acc
  induction acc with
  | nil => intro _ e he; simp at he
  | cons a rest ih =>
    intro hnd e he
    obtain ⟨g, n⟩ := a
    rcases List.mem_cons.mp he with he | he
    · subst he
      exact lookupN_cons_self g n rest
    · rw [List.map_cons, List.nodup_cons] at hnd
      have hg : e.1 ≠ g := by
        intro hh
        have hm : e.1 ∈ rest.map Prod.fst := List.mem_map_of_mem Prod.fst he
        rw [hh] at hm
        exact hnd.1 hm
      rw [lookupN_cons_ne _ _ _ hg]
      exact ih hnd.2 he

theorem indexOf_append_new {p : List String} {f : String} (h : f ∉ p) :
    (p ++ [f]).indexOf f = p.length := by
  induction p with
  | nil => simp [List.indexOf_cons]
  | cons a rest ih =>
    rw [List.cons_append, List.indexOf_cons]
    have ha : (a == f) = false := by
      simp only [beq_eq_false_iff_ne, ne_eq]
      intro hh
      exact h (by rw [hh]; exact List.mem_cons_self _ _)
    rw [ha]
    simp only [cond_false, List.length_cons]
    rw [ih (fun hm => h (List.mem_cons_of_mem a hm))]

theorem bumpFold_inv (p : List String) :
    ((p.foldl bumpFlag []).map Prod.fst).Nodup ∧
    (∀ g, g ∈ (p.foldl bumpFlag []).map Prod.fst ↔ g ∈ p) ∧
    (∀ g, lookupN (p.foldl bumpFlag []) g = p.count g) ∧
    ((p.foldl bumpFlag []).map Prod.fst).Pairwise
      (fun x y => p.indexOf x < p.indexOf y) := by
  induction p using List.reverseRecOn with
  | nil => simp [lookupN]
  | append_singleton p f ih =>
    obtain ⟨hnd, hmem, hcount, hpw⟩ := ih
    rw [List.foldl_append]
    simp only [List.foldl_cons, List.foldl_nil]
    refine ⟨?_, ?_, ?_, ?_⟩
    · rw [bumpFlag_keys]
      by_cases hf : f ∈ (p.foldl bumpFlag []).map Prod.fst
      · rw [if_pos hf]; exact hnd
      · rw [if_neg hf]
        rw [List.nodup_append]
        exact ⟨hnd, List.nodup_singleton f, by
          intro g hg hg2
          simp at hg2
          subst hg2
          exact hf hg⟩
    · intro g
      rw [bumpFlag_keys]
      by_cases hf : f ∈ (p.foldl bumpFlag []).map Prod.fst
      · rw [if_pos hf]
        rw [hmem g]
        constructor
        · intro hg; exact List.mem_append_left _ hg
        · intro hg
          rcases List.mem_append.mp hg with hg | hg
          · exact hg
          · simp at hg
            subst hg
            exact (hmem g).mp hf
      · rw [if_neg hf]
        rw [List.mem_append, hmem g]
        simp
    · intro g
      rw [bumpFlag_lookup]
      by_cases hg : g = f
      · subst hg
        rw [if_pos rfl, hcount g, List.count_append]
        simp
      · rw [if_neg hg, hcount g, List.count_append]
        have : [f].count g = 0 := by
          simp [List.count_singleton]
          exact fun hh => hg hh.symm
        rw [this]
        omega
    · rw [bumpFlag_keys]
      have hstable : ∀ x ∈ (p.foldl bumpFlag []).map Prod.fst,
          (p ++ [f]).indexOf x = p.indexOf x := by
        intro x hx
        exact List.indexOf_append_of_mem ((hmem x).mp hx)
      by_cases hf : f ∈ (p.foldl bumpFlag []).map Prod.fst
      · rw [if_pos hf]
        refine List.Pairwise.imp_of_mem ?_ hpw
        intro x y hx hy hlt
        rw [hstable x hx, hstable y hy]
        exact hlt
      · rw [if_neg hf]
        rw [List.pairwise_append]
        refine ⟨?_, List.pairwise_singleton _ _, ?_⟩
        · refine List.Pairwise.imp_of_mem ?_ hpw
          intro x y hx hy hlt
          rw [hstable x hx, hstable y hy]
          exact hlt
        · intro x hx y hy
          simp at hy
          subst hy
          rw [hstable x hx]
          rw [indexOf_append_new (fun hm => hf ((hmem _).mpr hm))]
          have := List.indexOf_lt_length.mpr ((hmem x).mp hx)
          omega

theorem getElem_pair_sublist {α : Type} (l : List α) {i j : Nat} (hij : i < j)
    (hj : j < l.length) :
    List.Sublist [l.get ⟨i, lt_trans hij hj⟩, l.get ⟨j, hj⟩] l := by
  have hi : i < l.length := lt_trans hij hj
  have htake : l.take (i + 1) = l.take i ++ [l.get ⟨i, hi⟩] := by
    rw [List.take_succ, List.getElem?_eq_getElem hi]
    rfl
  have hj' : j - (i + 1) < (l.drop (i + 1)).length := by
    rw [List.length_drop]
    omega
  have hmemd : l.get ⟨j, hj⟩ ∈ l.drop (i + 1) := by
    have hd : (l.drop (i + 1)).get ⟨j - (i + 1), hj'⟩ = l.get ⟨j, hj⟩ := by
      simp only [List.get_eq_getElem]
      rw [List.getElem_drop]
      congr 1
      omega
    rw [← hd]
    exact List.get_mem _ _ _
  have hs : List.Sublist ([l.get ⟨i, hi⟩] ++ [l.get ⟨j, hj⟩])
      ((l.take i ++ [l.get ⟨i, hi⟩]) ++ l.drop (i + 1)) := by
    refine List.Sublist.append ?_ ?_
    · exact List.sublist_append_right _ _
    · exact List.singleton_sublist.mpr hmemd
  have : [l.get ⟨i, hi⟩] ++ [l.get ⟨j, hj⟩] = [l.get ⟨i, lt_trans hij hj⟩, l.get ⟨j, hj⟩] := rfl
  rw [this] at hs
  rw [← htake, List.take_append_drop] at hs
  exact hs

theorem sublist_pair_indexOf {α : Type} [DecidableEq α] {x y : α} :
    ∀ {l : List α}, List.Sublist [x, y] l → l.Nodup → l.indexOf x < l.indexOf y := by
  intro l
  induction l with
  | nil => intro h; cases h
  | cons a rest ih =>
    intro h hnd
    rw [List.nodup_cons] at hnd
    cases h with
    | cons _ h2 =>
      have hx : x ∈ rest := h2.subset (List.mem_cons_self _ _)
      have hy : y ∈ rest := h2.subset (List.mem_cons_of_mem _ (List.mem_cons_self _ _))
      have hax : (a == x) = false := by
        simp only [beq_eq_false_iff_ne, ne_eq]
        intro hh
        exact hnd.1 (hh ▸ hx)
      have hay : (a == y) = false := by
        simp only [beq_eq_false_iff_ne, ne_eq]
        intro hh
        exact hnd.1 (hh ▸ hy)
      rw [List.indexOf_cons, List.indexOf_cons, hax, hay]
      simp only [cond_false]
      have := ih h2 hnd.2
      omega
    | cons₂ _ h2 =>
      have hy : y ∈ rest := List.singleton_sublist.mp h2
      have hxy : (x == y) = false := by
        simp only [beq_eq_false_iff_ne, ne_eq]
        intro hh
        exact hnd.1 (hh ▸ hy)
      rw [List.indexOf_cons, List.indexOf_cons, hxy]
      simp

theorem indexOf_getElem_nodup {α : Type} [DecidableEq α] {l : List α} (hnd : l.Nodup)
    {i : Nat} (hi : i < l.length) : l.indexOf (l.get ⟨i, hi⟩) = i := by
  have h1 : l.indexOf (l.get ⟨i, hi⟩) < l.length :=
    List.indexOf_lt_length.mpr (List.get_mem _ _ _)
  have h2 : l.get ⟨l.indexOf (l.get ⟨i, hi⟩), h1⟩ = l.get ⟨i, hi⟩ := by
    simp only [List.get_eq_getElem]
    exact List.getElem_indexOf h1
  simp only [List.get_eq_getElem] at h2
  exact hnd.getElem_inj_iff.mp h2

theorem topRank_core (p : List String) :
    (((p.foldl bumpFlag []).mergeSort (fun a b => decide (b.2 ≤ a.2))).take 12).length ≤ 12 ∧
    ((((p.foldl bumpFlag []).mergeSort (fun a b => decide (b.2 ≤ a.2))).take 12).map
        Prod.fst).Nodup ∧
    (∀ e ∈ ((p.foldl bumpFlag []).mergeSort (fun a b => decide (b.2 ≤ a.2))).take 12,
      e.1 ∈ p ∧ e.2 = p.count e.1) ∧
    (((p.foldl bumpFlag []).mergeSort (fun a b => decide (b.2 ≤ a.2))).take 12).Pairwise
      (fun a b => b.2 < a.2 ∨ (b.2 = a.2 ∧ p.indexOf a.1 < p.indexOf b.1)) ∧
    ((p.foldl bumpFlag []).length ≤ 12 →
      ∀ g ∈ p, ∃ e ∈ ((p.foldl bumpFlag []).mergeSort (fun a b => decide (b.2 ≤ a.2))).take 12,
        e.1 = g) := by
  obtain ⟨hnd, hmem, hcount, hpw⟩ := bumpFold_inv p
  set E := p.foldl bumpFlag [] with hE
  set S := E.mergeSort (fun a b => decide (b.2 ≤ a.2)) with hS
  have htr : ∀ a b c : String × Nat,
      (fun a b : String × Nat => decide (b.2 ≤ a.2)) a b = true →
      (fun a b : String × Nat => decide (b.2 ≤ a.2)) b c = true →
      (fun a b : String × Nat => decide (b.2 ≤ a.2)) a c = true := by
    intro a b c hab hbc
    simp only [decide_eq_true_eq] at hab hbc ⊢
    omega
  have hto : ∀ a b : String × Nat,
      ((fun a b : String × Nat => decide (b.2 ≤ a.2)) a b ||
       (fun a b : String × Nat => decide (b.2 ≤ a.2)) b a) = true := by
    intro a b
    simp only [Bool.or_eq_true, decide_eq_true_eq]
    omega
  have hperm : List.Perm S E := List.mergeSort_perm E _
  have hEnd : E.Nodup := List.Nodup.of_map Prod.fst hnd
  have hSnd : S.Nodup := hperm.nodup_iff.mpr hEnd
  have hSkeys : (S.map Prod.fst).Nodup := (hperm.map Prod.fst).nodup_iff.mpr hnd
  have hSorted : S.Pairwise (fun a b => b.2 ≤ a.2) := by
    have := List.sorted_mergeSort htr hto E
    rw [← hS] at this
    exact this.imp (fun h => by simpa using h)
  have hTsub : List.Sublist (S.take 12) S := List.take_sublist 12 S
  refine ⟨List.length_take_le _ _, ?_, ?_, ?_, ?_⟩
  · exact hSkeys.sublist (hTsub.map Prod.fst)
  · intro e he
    have heS : e ∈ S := hTsub.subset he
    have heE : e ∈ E := hperm.subset heS
    have hk : e.1 ∈ E.map Prod.fst := List.mem_map_of_mem Prod.fst heE
    refine ⟨(hmem e.1).mp hk, ?_⟩
    have h1 : lookupN E e.1 = e.2 := lookupN_of_mem hnd heE
    rw [← h1, hcount e.1]
  · refine (List.Pairwise.sublist hTsub ?_)
    rw [List.pairwise_iff_getElem]
    intro i j hi hj hij
    have hle : S[j].2 ≤ S[i].2 := by
      rw [List.pairwise_iff_getElem] at hSorted
      exact hSorted i j hi hj hij
    by_cases hlt : S[j].2 < S[i].2
    · exact Or.inl hlt
    · have heq : S[j].2 = S[i].2 := by omega
      refine Or.inr ⟨heq, ?_⟩
      have hne : S[i] ≠ S[j] := by
        intro hcontra
        have := hSnd.getElem_inj_iff.mp hcontra
        omega
      have haE : S[i] ∈ E := hperm.subset (List.getElem_mem hi)
      have hbE : S[j] ∈ E := hperm.subset (List.getElem_mem hj)
      rcases List.getElem_of_mem haE with ⟨ia, hia, hgia⟩
      rcases List.getElem_of_mem hbE with ⟨ib, hib, hgib⟩
      have hne2 : ia ≠ ib := by
        intro hcontra
        subst hcontra
        exact hne (hgia.symm.trans hgib)
      rcases Nat.lt_or_ge ia ib with hio | hio
      · have hpw2 := List.pairwise_iff_getElem.mp hpw ia ib
          (by rw [List.length_map]; exact hia) (by rw [List.length_map]; exact hib) hio
        simp only [List.getElem_map, hgia, hgib] at hpw2
        exact hpw2
      · exfalso
        have hio2 : ib < ia := by omega
        have hpair : List.Sublist [S[j], S[i]] E := by
          have h0 := getElem_pair_sublist E hio2 hia
          simpa only [List.get_eq_getElem, hgia, hgib] using h0
        have hp2 : List.Pairwise
            (fun a b : String × Nat => (fun a b : String × Nat => decide (b.2 ≤ a.2)) a b = true)
            [S[j], S[i]] := by
          refine List.pairwise_cons.mpr ⟨?_, List.pairwise_singleton _ _⟩
          intro b hb
          simp only [List.mem_singleton] at hb
          subst hb
          simp [heq]
        have hsub2 : List.Sublist [S[j], S[i]] S :=
          List.sublist_mergeSort htr hto hp2 hpair
        have hidx := sublist_pair_indexOf hsub2 hSnd
        have hsi := indexOf_getElem_nodup hSnd hi
        have hsj := indexOf_getElem_nodup hSnd hj
        simp only [List.get_eq_getElem] at hsi hsj
        rw [hsi, hsj] at hidx
        omega
  · intro hlen g hg
    have hSlen : S.length = E.length := hperm.length_eq
    have htake : S.take 12 = S := List.take_of_length_le (by omega)
    have hk : g ∈ E.map Prod.fst := (hmem g).mpr hg
    rcases List.mem_map.mp hk with ⟨e, heE, hefst⟩
    exact ⟨e, by rw [htake]; exact hperm.mem_iff.mpr heE, hefst⟩

theorem foldl_bumpFlag_flatten : ∀ (scored : List ScoredComment) (acc : List (String × Nat)),
    scored.foldl (fun acc c => c.flags.foldl bumpFlag acc) acc =
      ((scored.map ScoredComment.flags).flatten).foldl bumpFlag acc := by
  intro scored
  induction scored with
  | nil => intro acc; rfl
  | cons c rest ih =>
    intro acc
    simp only [List.foldl_cons, List.map_cons, List.flatten_cons, List.foldl_append]
    exact ih _

theorem flagEntries_eq_foldl (scored : List ScoredComment) :
    flagEntries scored = (allFlags scored).foldl bumpFlag [] :=
  foldl_bumpFlag_flatten scored []

/-- C7: for every batch of scored comments, `summarize`s `topFlags` has at
most 12 entries, lists each flag at most once, pairs every listed flag with
its total occurrence count over the batch, is ordered by count descending
with ties broken by first-seen (emission) order, and — whenever there are
at most 12 distinct flags — features every flag that occurs in the batch. -/
theorem summarize_topFlags_ranked (scored : List ScoredComment) (threshold : Int) :
    (summarize scored threshold).topFlags.length ≤ 12 ∧
    (((summarize scored threshold).topFlags).map Prod.fst).Nodup ∧
    (∀ e ∈ (summarize scored threshold).topFlags,
      e.1 ∈ allFlags scored ∧ e.2 = (allFlags scored).count e.1) ∧
    ((summarize scored threshold).topFlags).Pairwise
      (fun a b => b.2 < a.2 ∨ (b.2 = a.2 ∧
        (allFlags scored).indexOf a.1 < (allFlags scored).indexOf b.1)) ∧
    ((flagEntries scored).length ≤ 12 →
      ∀ g ∈ allFlags scored, ∃ e ∈ (summarize scored threshold).topFlags, e.1 = g) := by
  have h0 : (summarize scored threshold).topFlags =
      (((allFlags scored).foldl bumpFlag []).mergeSort
        (fun a b => decide (b.2 ≤ a.2))).take 12 := by
    rw [← flagEntries_eq_foldl]
    rfl
  rw [h0, flagEntries_eq_foldl]
  exact topRank_core (allFlags scored)

/-! ### Merge contract -/

theorem find?_filter_of_imp {α : Type} (p q : α → Bool)
    (h : ∀ a, p a = true → q a = true) :
    ∀ l : List α, (l.filter q).find? p = l.find? p := by
  intro l
  induction l with
  | nil => rfl
  | cons a rest ih =>
    by_cases hp : p a = true
    · rw [List.filter_cons, if_pos (h a hp), List.find?_cons_of_pos _ hp,
        List.find?_cons_of_pos _ hp]
    · have hp' : ¬p a = true := hp
      rw [List.filter_cons]
      by_cases hq : q a = true
      · rw [if_pos hq, List.find?_cons_of_neg _ hp', List.find?_cons_of_neg _ hp']
        exact ih
      · rw [if_neg hq, List.find?_cons_of_neg _ hp']
        exact ih

theorem aiMapGet_filter (per : List GeminiPerComment) (q : GeminiPerComment → Bool)
    {j : Int} (hq : ∀ p : GeminiPerComment, p.idx = j → q p = true) :
    aiMapGet (per.filter q) j = aiMapGet per j := by
  rw [aiMapGet, aiMapGet, ← List.filter_reverse]
  exact find?_filter_of_imp _ q
    (fun a ha => hq a (by simpa using ha)) per.reverse

theorem aiMapGet_mem {per : List GeminiPerComment} {j : Int} {a : GeminiPerComment}
    (h : aiMapGet per j = some a) : a ∈ per ∧ a.idx = j := by
  rw [aiMapGet] at h
  have hm := List.mem_reverse.mp (List.mem_of_find?_eq_some h)
  have hp := List.find?_some h
  simp only [decide_eq_true_eq] at hp
  exact ⟨hm, hp⟩

/-- C8: merging the secondary-classifier response into the candidate list
preserves the candidates in order and length (no crash on any input); a
candidate index with no matching returned entry gets the neutral
placeholder `score = null, label = "uncertain", reason = ""`; entries whose
index lies outside the candidate range never influence the result;
sanitized scores always lie in `[0, 100]`; labels outside
the whitelist `"bot"` / `"human"` / `"uncertain"` fall back to
`"uncertain"`; and every score the
merge attaches is either `null` or in `[0, 100]`. -/
theorem mergeAi_contract (candidates : List ScoredComment) (raw : List RawOpinion) :
    (mergeAi candidates (raw.map sanitizeOpinion)).length = candidates.length ∧
    (mergeAi candidates (raw.map sanitizeOpinion)).map Prod.fst = candidates ∧
    (∀ j : Nat, aiMapGet (raw.map sanitizeOpinion) (j : Int) = none →
      (mergeAi candidates (raw.map sanitizeOpinion))[j]? =
        (candidates[j]?).map (fun c => (c, uncertainPlaceholder))) ∧
    mergeAi candidates (raw.map sanitizeOpinion) =
      mergeAi candidates ((raw.map sanitizeOpinion).filter
        (fun p => decide (0 ≤ p.idx) && decide (p.idx < (candidates.length : Int)))) ∧
    (∀ p : RawOpinion, 0 ≤ (sanitizeOpinion p).ai_score ∧ (sanitizeOpinion p).ai_score ≤ 100) ∧
    (∀ p : RawOpinion, p.label ≠ "bot" → p.label ≠ "human" → p.label ≠ "uncertain" →
      (sanitizeOpinion p).label = "uncertain") ∧
    (∀ e ∈ mergeAi candidates (raw.map sanitizeOpinion),
      e.2.score = none ∨ ∃ s, e.2.score = some s ∧ 0 ≤ s ∧ s ≤ 100) := by
  have hscore : ∀ p : RawOpinion,
      0 ≤ (sanitizeOpinion p).ai_score ∧ (sanitizeOpinion p).ai_score ≤ 100 := by
    intro p
    constructor
    · exact le_max_left 0 _
    · exact max_le (by norm_num) (min_le_left _ _)
  refine ⟨?_, ?_, ?_, ?_, hscore, ?_, ?_⟩
  · rw [mergeAi, List.length_mapIdx]
  · apply List.ext_getElem?
    intro j
    rw [List.getElem?_map, mergeAi, List.getElem?_mapIdx]
    cases candidates[j]? with
    | none => rfl
    | some c => rfl
  · intro j hnone
    rw [mergeAi, List.getElem?_mapIdx, hnone]
  · apply List.ext_getElem?
    intro j
    rw [mergeAi, mergeAi, List.getElem?_mapIdx, List.getElem?_mapIdx]
    cases hc : candidates[j]? with
    | none => rfl
    | some c =>
      have hj : j < candidates.length := by
        by_contra hge
        rw [List.getElem?_eq_none (by omega)] at hc
        exact Option.noConfusion hc
      have hmap : aiMapGet ((raw.map sanitizeOpinion).filter
          (fun p => decide (0 ≤ p.idx) && decide (p.idx < (candidates.length : Int))))
          (j : Int) = aiMapGet (raw.map sanitizeOpinion) (j : Int) := by
        apply aiMapGet_filter
        intro p hp
        rw [hp]
        simp only [Bool.and_eq_true, decide_eq_true_eq]
        constructor
        · exact Int.ofNat_nonneg j
        · exact_mod_cast hj
      rw [hmap]
  · intro p h1 h2 h3
    have hne : ¬(p.label = "bot" ∨ p.label = "human" ∨ p.label = "uncertain") := by
      rintro (h | h | h)
      exacts [h1 h, h2 h, h3 h]
    show (if p.label = "bot" ∨ p.label = "human" ∨ p.label = "uncertain" then p.label
        else "uncertain") = "uncertain"
    exact if_neg hne
  · intro e he
    rw [mergeAi] at he
    rcases List.getElem_of_mem he with ⟨j, hj, hget⟩
    rw [List.length_mapIdx] at hj
    cases hcase : aiMapGet (raw.map sanitizeOpinion) (j : Int) with
    | none =>
      left
      have : e = (candidates[j], uncertainPlaceholder) := by
        rw [← hget]
        simp only [List.getElem_mapIdx, hcase]
      rw [this]
      rfl
    | some a =>
      right
      obtain ⟨hmem, _⟩ := aiMapGet_mem hcase
      rcases List.mem_map.mp hmem with ⟨p0, _, hp0⟩
      have he2 : e = (candidates[j],
          ({ score := some a.ai_score, label := a.label, reason := a.reason } : AiOnComment)) := by
        rw [← hget]
        simp only [List.getElem_mapIdx, hcase]
      refine ⟨a.ai_score, by rw [he2], ?_, ?_⟩
      · rw [← hp0]
        exact (hscore p0).1
      · rw [← hp0]
        exact (hscore p0).2

/-! ### Concrete witnesses -/

unseal Rat.mul Rat.add Rat.inv Rat.sub Rat.ofScientific normalizeForFingerprintL in
/-- Concrete instance of the C1 bound: a one-comment batch, evaluated. -/
theorem scoreComments_botScore_bounded_witness :
    scoreOne (fpCount [⟨"1", "u", JsVal.str "nice", 0, "t"⟩]) ⟨"1", "u", JsVal.str "nice", 0, "t"⟩
      ∈ scoreComments [⟨"1", "u", JsVal.str "nice", 0, "t"⟩] ∧
    (0 ≤ (scoreOne (fpCount [⟨"1", "u", JsVal.str "nice", 0, "t"⟩])
        ⟨"1", "u", JsVal.str "nice", 0, "t"⟩).botScore ∧
      (scoreOne (fpCount [⟨"1", "u", JsVal.str "nice", 0, "t"⟩])
        ⟨"1", "u", JsVal.str "nice", 0, "t"⟩).botScore ≤ 100) :=
  ⟨by decide, scoreComments_botScore_bounded [⟨"1", "u", JsVal.str "nice", 0, "t"⟩]
    (scoreOne (fpCount [⟨"1", "u", JsVal.str "nice", 0, "t"⟩])
      ⟨"1", "u", JsVal.str "nice", 0, "t"⟩) (by decide)⟩

unseal normalizeForFingerprintL in
/-- Concrete instance of C2: five identical `"nice"` comments; the
fingerprint is shorter than 18 characters, so none is counted or
template-flagged. -/
theorem short_fingerprint_no_template_witness :
    (fingerprintOf ⟨"i", "u", JsVal.str "nice", 0, "t"⟩).length < 18 ∧
    (fpCount [⟨"i", "u", JsVal.str "nice", 0, "t"⟩, ⟨"i", "u", JsVal.str "nice", 0, "t"⟩,
        ⟨"i", "u", JsVal.str "nice", 0, "t"⟩, ⟨"i", "u", JsVal.str "nice", 0, "t"⟩,
        ⟨"i", "u", JsVal.str "nice", 0, "t"⟩]
        (fingerprintOf ⟨"i", "u", JsVal.str "nice", 0, "t"⟩) = 0 ∧
      scoreOne (fpCount [⟨"i", "u", JsVal.str "nice", 0, "t"⟩, ⟨"i", "u", JsVal.str "nice", 0, "t"⟩,
        ⟨"i", "u", JsVal.str "nice", 0, "t"⟩, ⟨"i", "u", JsVal.str "nice", 0, "t"⟩,
        ⟨"i", "u", JsVal.str "nice", 0, "t"⟩]) ⟨"i", "u", JsVal.str "nice", 0, "t"⟩
        ∈ scoreComments [⟨"i", "u", JsVal.str "nice", 0, "t"⟩, ⟨"i", "u", JsVal.str "nice", 0, "t"⟩,
        ⟨"i", "u", JsVal.str "nice", 0, "t"⟩, ⟨"i", "u", JsVal.str "nice", 0, "t"⟩,
        ⟨"i", "u", JsVal.str "nice", 0, "t"⟩] ∧
      ∀ f ∈ (scoreOne (fpCount [⟨"i", "u", JsVal.str "nice", 0, "t"⟩,
        ⟨"i", "u", JsVal.str "nice", 0, "t"⟩, ⟨"i", "u", JsVal.str "nice", 0, "t"⟩,
        ⟨"i", "u", JsVal.str "nice", 0, "t"⟩, ⟨"i", "u", JsVal.str "nice", 0, "t"⟩])
        ⟨"i", "u", JsVal.str "nice", 0, "t"⟩).flags, ∀ k : Nat,
        f ≠ "template/duplicate x" ++ toString k) :=
  ⟨by decide, short_fingerprint_no_template _ _ (by decide) (by decide)⟩

unseal normalizeForFingerprintL in
/-- Concrete instance of C3: three copies of a long template among two
unique comments; each copy is template-flagged with `x3`. -/
theorem template_flagged_and_monotone_witness :
    18 ≤ "this is a repeated spam template message".data.length ∧
    3 = ([⟨"1", "u", JsVal.str "this is a repeated spam template message", 0, "t"⟩,
        ⟨"2", "u", JsVal.str "hello world something else one", 0, "t"⟩,
        ⟨"3", "u", JsVal.str "this is a repeated spam template message", 0, "t"⟩,
        ⟨"4", "u", JsVal.str "totally different other comment two", 0, "t"⟩,
        ⟨"5", "u", JsVal.str "this is a repeated spam template message", 0, "t"⟩].map
        fingerprintOf).count "this is a repeated spam template message".data ∧
    ∀ c ∈ [⟨"1", "u", JsVal.str "this is a repeated spam template message", 0, "t"⟩,
        ⟨"2", "u", JsVal.str "hello world something else one", 0, "t"⟩,
        ⟨"3", "u", JsVal.str "this is a repeated spam template message", 0, "t"⟩,
        ⟨"4", "u", JsVal.str "totally different other comment two", 0, "t"⟩,
        ⟨"5", "u", JsVal.str "this is a repeated spam template message", 0, "t"⟩],
      fingerprintOf c = "this is a repeated spam template message".data →
      ("template/duplicate x" ++ toString 3) ∈
        (scoreOne (fpCount [⟨"1", "u", JsVal.str "this is a repeated spam template message", 0, "t"⟩,
          ⟨"2", "u", JsVal.str "hello world something else one", 0, "t"⟩,
          ⟨"3", "u", JsVal.str "this is a repeated spam template message", 0, "t"⟩,
          ⟨"4", "u", JsVal.str "totally different other comment two", 0, "t"⟩,
          ⟨"5", "u", JsVal.str "this is a repeated spam template message", 0, "t"⟩]) c).flags :=
  ⟨by decide, by decide,
    (template_flagged_and_monotone _ "this is a repeated spam template message".data 3
      (by decide) (by decide) (by decide) (by decide)).1⟩

unseal normalizeForFingerprintL in
/-- Concrete instance of C10: a whitespace-only body normalizes to the
empty fingerprint and is never counted or template-flagged. -/
theorem empty_fingerprint_no_template_witness :
    fingerprintOf ⟨"w", "u", JsVal.str "   ", 0, "t"⟩ = [] ∧
    (fpCount [⟨"w", "u", JsVal.str "   ", 0, "t"⟩, ⟨"w", "u", JsVal.str "   ", 0, "t"⟩]
        (fingerprintOf ⟨"w", "u", JsVal.str "   ", 0, "t"⟩) = 0 ∧
      scoreOne (fpCount [⟨"w", "u", JsVal.str "   ", 0, "t"⟩, ⟨"w", "u", JsVal.str "   ", 0, "t"⟩])
        ⟨"w", "u", JsVal.str "   ", 0, "t"⟩
        ∈ scoreComments [⟨"w", "u", JsVal.str "   ", 0, "t"⟩, ⟨"w", "u", JsVal.str "   ", 0, "t"⟩] ∧
      ∀ f ∈ (scoreOne (fpCount [⟨"w", "u", JsVal.str "   ", 0, "t"⟩,
          ⟨"w", "u", JsVal.str "   ", 0, "t"⟩]) ⟨"w", "u", JsVal.str "   ", 0, "t"⟩).flags,
        ∀ k : Nat, f ≠ "template/duplicate x" ++ toString k) :=
  ⟨by decide, empty_fingerprint_no_template _ _ (by decide) (by decide)⟩

/-- Concrete instance of C7 on a two-comment batch. -/
theorem summarize_topFlags_ranked_witness :
    (summarize [⟨"a", "u", JsVal.nullish, 0, "", 70, ["flagB", "flagA"]⟩,
        ⟨"b", "u", JsVal.nullish, 0, "", 61, ["flagA"]⟩] 60).topFlags.length ≤ 12 ∧
    ∀ e ∈ (summarize [⟨"a", "u", JsVal.nullish, 0, "", 70, ["flagB", "flagA"]⟩,
        ⟨"b", "u", JsVal.nullish, 0, "", 61, ["flagA"]⟩] 60).topFlags,
      e.1 ∈ allFlags [⟨"a", "u", JsVal.nullish, 0, "", 70, ["flagB", "flagA"]⟩,
        ⟨"b", "u", JsVal.nullish, 0, "", 61, ["flagA"]⟩] ∧
      e.2 = (allFlags [⟨"a", "u", JsVal.nullish, 0, "", 70, ["flagB", "flagA"]⟩,
        ⟨"b", "u", JsVal.nullish, 0, "", 61, ["flagA"]⟩]).count e.1 :=
  ⟨(summarize_topFlags_ranked [⟨"a", "u", JsVal.nullish, 0, "", 70, ["flagB", "flagA"]⟩,
      ⟨"b", "u", JsVal.nullish, 0, "", 61, ["flagA"]⟩] 60).1,
   (summarize_topFlags_ranked [⟨"a", "u", JsVal.nullish, 0, "", 70, ["flagB", "flagA"]⟩,
      ⟨"b", "u", JsVal.nullish, 0, "", 61, ["flagA"]⟩] 60).2.2.1⟩

/-- Concrete instance of C8: one returned entry whose index `5` is outside
the single-candidate range; the candidate gets the placeholder. -/
theorem mergeAi_contract_witness :
    aiMapGet ([⟨5, some 250, "alien", none⟩].map sanitizeOpinion) ((0 : Nat) : Int) = none ∧
    (mergeAi [⟨"a", "u", JsVal.str "hi", 3, "t", 70, ["flagA"]⟩]
        ([⟨5, some 250, "alien", none⟩].map sanitizeOpinion))[0]? =
      (([⟨"a", "u", JsVal.str "hi", 3, "t", 70, ["flagA"]⟩] :
        List ScoredComment)[0]?).map (fun c => (c, uncertainPlaceholder)) :=
  ⟨by decide, (mergeAi_contract [⟨"a", "u", JsVal.str "hi", 3, "t", 70, ["flagA"]⟩]
      [⟨5, some 250, "alien", none⟩]).2.2.1 0 (by decide)⟩
